import Mathlib

/-!
# A verification of the ADBMS graph database engine

This file gives a shallow embedding, in Lean 4, of the core of the
`ADBMS/kk.py` graph database: the vertex/edge/index data model, the
mutating operations of `GraphDatabase` (`add_node`, `update_node`,
`delete_node`, `add_edge`, `delete_edge`, `create_index`, `drop_index`),
the transaction operations (`begin`/`commit`/`rollback`/`stop`), the merge
mode of `DatabaseManager.import_database`, the WHERE-clause query engine
(index-probing plan and full-scan plan) restricted to node-attribute
conditions, the condition parser's operator-splitting loop, breadth-first
`find_path`, and the file-level `backup_database`/`export_database`
operations of `DatabaseManager`.

Modelling conventions, stated once here:

* Python `dict`s (insertion ordered, unique keys) are association lists
  `List (String × β)`; `aget`/`aset`/`aerase` mirror `d[k]`, `d[k] = v`
  and `del d[k]` on dicts whose keys are distinct.  Python `set`s of node
  ids are `List String` used up to membership, grown with add-if-absent.
* Scalar attribute values are the sum `Value` of string, integer and
  boolean.  Python floats are not modelled (IEEE semantics are outside
  this embedding); numeric query literals containing a dot are parsed as
  exact rationals, which agrees with Python's comparison of such literals
  against stored integer attributes.  Crucially, `isinstance(x, (int,
  float))` is `True` for Python booleans, so the numeric test `toNum` of
  the model succeeds on `Value.vBool`, exactly as in the source.
* Exceptions are `Except PyError`; messages are abbreviated.
* `print` warnings and the JSON persistence layer (`save_nodes` /
  `save_indexes`, which rewrite both files and change no in-memory state)
  are not modelled; `save()` is the identity on the modelled state.
* The query model covers node-attribute conditions with the operators
  `=`, `!=`, `>`, `<`, `>=`, `<=`, `IN`, `CONTAINS`; `edge.*` conditions
  and `REGEX` are outside the model, and theorems about the planner are
  stated with an explicit "no edge.* key" hypothesis.
-/

/-! ## Association lists: Python dicts -/

/-- `d.get(k)` / `d[k]` as a lookup on an insertion-ordered association list. -/
def aget {β : Type} : List (String × β) → String → Option β
  | [], _ => none
  | (k', v') :: rest, k => if k' = k then some v' else aget rest k

/-- `d[k] = v` on a Python dict: overwrite in place if the key is present,
append otherwise. -/
def aset {β : Type} : List (String × β) → String → β → List (String × β)
  | [], k, v => [(k, v)]
  | (k', v') :: rest, k, v =>
    if k' = k then (k, v) :: rest else (k', v') :: aset rest k v

/-- `del d[k]` on a Python dict (keys are unique, so removing the first
occurrence is removing the only occurrence). -/
def aerase {β : Type} : List (String × β) → String → List (String × β)
  | [], _ => []
  | (k', v') :: rest, k => if k' = k then rest else (k', v') :: aerase rest k

/-- `k in d` for a Python dict. -/
def hasKey {β : Type} (l : List (String × β)) (k : String) : Bool :=
  (aget l k).isSome

/-- The key list of a dict, in insertion order. -/
def dkeys {β : Type} (l : List (String × β)) : List String :=
  l.map Prod.fst

/-- `s.add(x)` on a Python set modelled as a duplicate-free list. -/
def sadd (l : List String) (x : String) : List String :=
  if x ∈ l then l else l ++ [x]

/-- `s.discard(x)` on a Python set modelled as a list. -/
def sdiscard (l : List String) (x : String) : List String :=
  l.filter (fun y => ¬ y = x)

/-! ## Strings: the Python string operations the source uses

All are written by structural recursion over the character list so that
concrete runs reduce inside `decide`/`rfl`. -/

/-- Python `str.lower()` (the source only ever lowercases ASCII data). -/
def pyLower (s : String) : String :=
  ⟨s.data.map Char.toLower⟩

/-- Python `str.strip()`: drop leading and trailing whitespace. -/
def pyTrim (s : String) : String :=
  ⟨((s.data.dropWhile Char.isWhitespace).reverse.dropWhile Char.isWhitespace).reverse⟩

/-- Does `pat` occur as a contiguous sublist of `l`?  (Python `pat in s`
for a non-empty `pat`.) -/
def subAux (pat : List Char) : List Char → Bool
  | [] => pat.isPrefixOf []
  | c :: rest => pat.isPrefixOf (c :: rest) || subAux pat rest

/-- Python `needle in haystack` on strings. -/
def pyContainsSub (haystack needle : String) : Bool :=
  subAux needle.data haystack.data

/-- Helper for `pySplitFirst`: split `l` at the first occurrence of `pat`,
returning the parts before and after it. -/
def splitFirstAux (pat : List Char) : List Char → Option (List Char × List Char)
  | [] => if pat.isPrefixOf [] then some ([], []) else none
  | c :: rest =>
    if pat.isPrefixOf (c :: rest) then some ([], (c :: rest).drop pat.length)
    else match splitFirstAux pat rest with
      | some (pre, post) => some (c :: pre, post)
      | none => none

/-- Python `s.split(sep, 1)`, defined when `sep` occurs in `s`: the text
before and after the first occurrence of `sep`. -/
def pySplitFirst (s sep : String) : Option (String × String) :=
  match splitFirstAux sep.data s.data with
  | some (pre, post) => some (⟨pre⟩, ⟨post⟩)
  | none => none

/-- Fuel-driven worker for `pyReplace`; the fuel starts at the string
length and each step consumes at least one character, so it never runs
out on the initial call. -/
def replaceAux (pat rep : List Char) : Nat → List Char → List Char
  | 0, l => l
  | _ + 1, [] => []
  | fuel + 1, c :: rest =>
    if pat ≠ [] ∧ pat.isPrefixOf (c :: rest) then
      rep ++ replaceAux pat rep fuel ((c :: rest).drop pat.length)
    else c :: replaceAux pat rep fuel rest

/-- Python `s.replace(pat, rep)`: replace every (leftmost, non-overlapping)
occurrence. -/
def pyReplace (s pat rep : String) : String :=
  ⟨replaceAux pat.data rep.data s.data.length s.data⟩

/-- Python `s.startswith(pre)`. -/
def pyStartsWith (s pre : String) : Bool :=
  pre.data.isPrefixOf s.data

/-! ## Numeric literal parsing: `float(value) if '.' in value else int(value)` -/

/-- Parse a non-empty all-digit character list. -/
def digitsToNat : List Char → Option Nat
  | [] => none
  | l =>
    if l.all Char.isDigit then
      some (l.foldl (fun acc c => acc * 10 + (c.toNat - 48)) 0)
    else none

/-- Python `int(s)` on a stripped literal: optional sign then digits. -/
def pyInt (s : String) : Option Int :=
  match s.data with
  | '-' :: rest => (digitsToNat rest).map (fun n => -(n : Int))
  | '+' :: rest => (digitsToNat rest).map (fun n => (n : Int))
  | l => (digitsToNat l).map (fun n => (n : Int))

/-- Digits after the decimal point: their value and the power of ten. -/
def fracToRat (l : List Char) : Option (ℚ × ℚ) :=
  if l.all Char.isDigit then
    some ((l.foldl (fun acc c => acc * 10 + (c.toNat - 48)) (0 : ℕ) : ℚ),
          ((10 : ℚ) ^ l.length))
  else none

/-- Python `float(s)` on a literal containing a dot: `[sign] digits . digits`
with at least one digit overall (Python accepts `"5."` and `".5"`).
Exponent forms are not modelled; no claim exercises them. -/
def pyFloatDot (s : String) : Option ℚ :=
  let core : List Char → Option ℚ := fun l =>
    match l.splitOn '.' with
    | [intPart, fracPart] =>
      if intPart = [] ∧ fracPart = [] then none
      else
        match digitsToNat (if intPart = [] then ['0'] else intPart),
              fracToRat fracPart with
        | some ip, some (fv, fd) => some ((ip : ℚ) + fv / fd)
        | _, _ => none
    | _ => none
  match s.data with
  | '-' :: rest => (core rest).map (fun q => -q)
  | '+' :: rest => core rest
  | l => core l

/-- Line 733 / 840 / 851 … of `kk.py`:
`value = float(value) if '.' in value else int(value)`; `none` is the
`ValueError` the source raises and catches. -/
def parseNum (s : String) : Option ℚ :=
  if s.data.contains '.' then pyFloatDot s else (pyInt s).map (fun n => (n : ℚ))

/-! ## Scalar values -/

/-- A vertex attribute value: `str`, `int` or `bool`.  (Floats are outside
the model; see the header.) -/
inductive Value
  | vStr (s : String)
  | vInt (n : Int)
  | vBool (b : Bool)
deriving DecidableEq, Repr

/-- Python `str(v)` on a scalar: note `str(True) = "True"`. -/
def pyStr : Value → String
  | .vStr s => s
  | .vInt n => toString n
  | .vBool b => if b then "True" else "False"

/-- Python `isinstance(v, (int, float))` succeeds on booleans too (`bool`
is a subclass of `int`), and the numeric view of `True` is `1`.  This is
the numeric test the query evaluator dispatches on. -/
def toNum : Value → Option ℚ
  | .vStr _ => none
  | .vInt n => some (n : ℚ)
  | .vBool b => some (if b then 1 else 0)

/-! ## The database state -/

/-- Edge property record: optional string label, optional numeric weight
(modelled as an exact rational). -/
structure EdgeProps where
  label : Option String
  weight : Option ℚ
deriving DecidableEq, Repr

/-- A vertex attribute map. -/
abbrev Attrs := List (String × Value)

/-- One entry of the node map: `{"value": attrs, "edges": {target: props}}`. -/
structure NodeData where
  value : Attrs
  edges : List (String × EdgeProps)
deriving DecidableEq, Repr

/-- One index: value key (string form) to set of node ids. -/
abbrev OneIndex := List (String × List String)

/-- `self.db`: the node map and the index maps. -/
structure DB where
  nodes : List (String × NodeData)
  indexes : List (String × OneIndex)
deriving DecidableEq, Repr

/-- A `GraphDatabase` instance: `self.db`, `self.transaction`
(`None` / `True` / `False`) and `self.transaction_history`. -/
structure GraphDatabase where
  db : DB
  transaction : Option Bool
  history : List DB
deriving DecidableEq, Repr

/-- The Python exceptions the modelled code raises. -/
inductive PyError
  | valueError (msg : String)
  | keyError (msg : String)
deriving DecidableEq, Repr

/-! ## Index maintenance -/

/-- `indexes[attr].setdefault(value_key, set()).add(node_id)` — the insert
half of `_update_index` and the body of `create_index`'s back-fill. -/
def indexAddEntry (idx : OneIndex) (valueKey nodeId : String) : OneIndex :=
  aset idx valueKey (sadd ((aget idx valueKey).getD []) nodeId)

/-- `_update_index` on one attribute's map (`kk.py` 418-433): remove the id
from the old value key (dropping the key when its set empties), then add it
under the new value key.  Both keys are the plain `str(...)` form — no
lowercasing on this path. -/
def updateIndexOne (idx : OneIndex) (nodeId : String) (oldV newV : Option Value) :
    OneIndex :=
  let idx1 :=
    match oldV with
    | none => idx
    | some ov =>
      let key := pyStr ov
      match aget idx key with
      | none => idx
      | some s =>
        let s' := sdiscard s nodeId
        if s' = [] then aerase idx key else aset idx key s'
  match newV with
  | none => idx1
  | some nv => indexAddEntry idx1 (pyStr nv) nodeId

/-- `_update_index` itself: a no-op when the attribute is not indexed. -/
def updateIndex (indexes : List (String × OneIndex)) (attrName nodeId : String)
    (oldV newV : Option Value) : List (String × OneIndex) :=
  match aget indexes attrName with
  | none => indexes
  | some idx => aset indexes attrName (updateIndexOne idx nodeId oldV newV)

/-! ## GraphDatabase operations

The Python list `transaction_history` is used as a stack (append / `pop()`
at the right end); the model keeps the stack top at the list head. -/

/-- `if self.transaction: self.transaction_history.append(deepcopy(self.db))` —
the pre-image snapshot every node/edge mutation takes while a transaction
is open and active.  In the value model the deep copy is the value itself. -/
def snapIfTx (st : GraphDatabase) : GraphDatabase :=
  if st.transaction = some true then { st with history := st.db :: st.history }
  else st

/-- `create_index` (`kk.py` 390-406): fails on an empty attribute name or an
existing index, otherwise back-fills from every node that carries the
attribute, keyed by the un-lowercased `str(value)`. -/
def createIndex (st : GraphDatabase) (attrName : String) :
    Except PyError GraphDatabase :=
  if attrName = "" then
    .error (.valueError "Index attribute must be a non-empty string")
  else if hasKey st.db.indexes attrName then
    .error (.valueError "Index already exists")
  else
    let idx := st.db.nodes.foldl
      (fun idx p =>
        match aget p.2.value attrName with
        | none => idx
        | some v => indexAddEntry idx (pyStr v) p.1)
      ([] : OneIndex)
    .ok { st with db := { st.db with indexes := aset st.db.indexes attrName idx } }

/-- `drop_index` (`kk.py` 408-413). -/
def dropIndex (st : GraphDatabase) (attrName : String) :
    Except PyError GraphDatabase :=
  if ¬ hasKey st.db.indexes attrName then
    .error (.valueError "No index exists")
  else
    .ok { st with db := { st.db with indexes := aerase st.db.indexes attrName } }

/-- `add_node` (`kk.py` 435-457).  The fresh UUID the source draws from
`uuid.uuid4()` is supplied as the argument `newId`; name-collision warnings
are prints and are not modelled, and the per-attribute scalar type check is
carried by the type `Attrs`. -/
def addNode (st : GraphDatabase) (newId : String) (value : Attrs) :
    Except PyError GraphDatabase :=
  if value = [] then .error (.valueError "Node value must be a non-empty dict")
  else
    let st := snapIfTx st
    let nodes := aset st.db.nodes newId { value := value, edges := [] }
    let indexes := (dkeys st.db.indexes).foldl
      (fun idxs attrName =>
        if hasKey value attrName then
          updateIndex idxs attrName newId none (aget value attrName)
        else idxs)
      st.db.indexes
    .ok { st with db := { nodes := nodes, indexes := indexes } }

/-- Rewrite the record of an existing node; Python's `self.db["nodes"][k]`
indexing presupposes the key (always pre-checked in the source), so the
missing-key case never fires on the paths that use this helper. -/
def modifyNode (nodes : List (String × NodeData)) (k : String)
    (f : NodeData → NodeData) : List (String × NodeData) :=
  match aget nodes k with
  | none => nodes
  | some nd => aset nodes k (f nd)

/-- `add_edge` (`kk.py` 459-477): both endpoints must exist, be distinct and
not yet connected; the same property record is written on both sides.  The
numeric check on `weight` is carried by its type `Option ℚ` (in the source
it is performed after the snapshot push, which only matters on a failing
call). -/
def addEdge (st : GraphDatabase) (key1 key2 : String) (label : Option String)
    (weight : Option ℚ) : Except PyError GraphDatabase :=
  if ¬ (hasKey st.db.nodes key1 ∧ hasKey st.db.nodes key2) then
    .error (.keyError "One or both node IDs do not exist")
  else if key1 = key2 then
    .error (.valueError "Cannot add an edge from a node to itself")
  else if (aget st.db.nodes key1).elim false (fun nd => hasKey nd.edges key2) then
    .error (.valueError "Edge already exists")
  else
    let st := snapIfTx st
    let props : EdgeProps := { label := label, weight := weight }
    let nodes1 := modifyNode st.db.nodes key1
      (fun nd => { nd with edges := aset nd.edges key2 props })
    let nodes2 := modifyNode nodes1 key2
      (fun nd => { nd with edges := aset nd.edges key1 props })
    .ok { st with db := { st.db with nodes := nodes2 } }

/-- `delete_edge` (`kk.py` 479-488): removes the entry on both sides.  The
second deletion, `del self.db["nodes"][key2]["edges"][key1]`, raises
`KeyError` when the reverse entry is missing (which can only happen on a
state violating the symmetry invariant, or when deleting a self-loop that
only a merge import can have created). -/
def deleteEdge (st : GraphDatabase) (key1 key2 : String) :
    Except PyError GraphDatabase :=
  if ¬ (hasKey st.db.nodes key1 ∧ hasKey st.db.nodes key2) then
    .error (.keyError "One or both node IDs do not exist")
  else if ¬ (aget st.db.nodes key1).elim false (fun nd => hasKey nd.edges key2) then
    .error (.valueError "No edge exists")
  else
    let st := snapIfTx st
    let nodes1 := modifyNode st.db.nodes key1
      (fun nd => { nd with edges := aerase nd.edges key2 })
    match aget nodes1 key2 with
    | none => .error (.keyError "node disappeared")
    | some nd2 =>
      if hasKey nd2.edges key1 then
        let nodes2 := aset nodes1 key2 ({ nd2 with edges := aerase nd2.edges key1 })
        .ok { st with db := { st.db with nodes := nodes2 } }
      else .error (.keyError "missing reverse adjacency entry")

/-- One step of `delete_node`'s reverse-adjacency sweep
(`del self.db["nodes"][target_id]["edges"][key]`, `kk.py` 510-511):
`KeyError` when the target or its reverse entry is missing. -/
def delSweepStep (key : String) (ns : List (String × NodeData)) (tgt : String) :
    Except PyError (List (String × NodeData)) :=
  match aget ns tgt with
  | none => Except.error (PyError.keyError "adjacency references a missing node")
  | some nd =>
    if hasKey nd.edges key then
      Except.ok (aset ns tgt ({ nd with edges := aerase nd.edges key }))
    else Except.error (PyError.keyError "missing reverse adjacency entry")

/-- `delete_node` (`kk.py` 493-514).  Note `value_key = str(value).lower()`
on line 504: the only lowercased key on any index-mutation path.  The
reverse-adjacency deletions raise `KeyError` when an entry is missing; on
that (invariant-violating) path the source leaves a partially mutated
state, which the model reports as a bare error. -/
def deleteNode (st : GraphDatabase) (key : String) : Except PyError GraphDatabase :=
  match aget st.db.nodes key with
  | none => .error (.keyError "Node not found")
  | some nodeData =>
    let st := snapIfTx st
    let indexes := (dkeys st.db.indexes).foldl
      (fun idxs attrName =>
        match aget nodeData.value attrName with
        | none => idxs
        | some v =>
          let valueKey := pyLower (pyStr v)
          match aget idxs attrName with
          | none => idxs
          | some idx =>
            match aget idx valueKey with
            | none => idxs
            | some s =>
              let s' := sdiscard s key
              aset idxs attrName
                (if s' = [] then aerase idx valueKey else aset idx valueKey s'))
      st.db.indexes
    match (dkeys nodeData.edges).foldlM (delSweepStep key) st.db.nodes with
    | .error e => .error e
    | .ok nodes1 =>
      .ok { st with db := { nodes := aerase nodes1 key, indexes := indexes } }

/-- Python `==` on attribute scalars: numbers (booleans included, as 0/1)
compare numerically, strings compare as strings, and a string never equals
a number. -/
def pyEqValue (v w : Value) : Bool :=
  match toNum v, toNum w with
  | some a, some b => a == b
  | _, _ =>
    match v, w with
    | .vStr s, .vStr t => s == t
    | _, _ => false

/-- Python `==` between `dict.get` results (`None` is only equal to `None`). -/
def pyEqOptValue : Option Value → Option Value → Bool
  | none, none => true
  | some v, some w => pyEqValue v w
  | _, _ => false

/-- `update_node` (`kk.py` 516-539): for every indexed attribute compare the
old value with `new_value.get(attrName, old_val)` under Python `==` and
update the index on change; then `dict.update` the attribute map. -/
def updateNode (st : GraphDatabase) (key : String) (newValue : Attrs) :
    Except PyError GraphDatabase :=
  match aget st.db.nodes key with
  | none => .error (.keyError "Node not found")
  | some nd =>
    if newValue = [] then .error (.valueError "New value must be a non-empty dict")
    else
      let st := snapIfTx st
      let current := nd.value
      let indexes := (dkeys st.db.indexes).foldl
        (fun idxs attrName =>
          let oldV := aget current attrName
          let newV := match aget newValue attrName with
            | none => oldV
            | some v => some v
          if pyEqOptValue oldV newV then idxs
          else updateIndex idxs attrName key oldV newV)
        st.db.indexes
      let merged := newValue.foldl (fun acc p => aset acc p.1 p.2) current
      .ok { st with db :=
        { nodes := aset st.db.nodes key { nd with value := merged },
          indexes := indexes } }

/-- `begin_transaction` (`kk.py` 586-591): refuses unless `self.transaction`
is `None` — a stopped transaction (`False`) also refuses. -/
def beginTransaction (st : GraphDatabase) : Except PyError GraphDatabase :=
  match st.transaction with
  | some _ => .error (.valueError "Transaction already in progress")
  | none => .ok { st with transaction := some true, history := [] }

/-- `commit_transaction` (`kk.py` 593-598): requires an active transaction;
discards the most recent snapshot if any, keeping the transaction open. -/
def commitTransaction (st : GraphDatabase) : Except PyError GraphDatabase :=
  if st.transaction = some true then .ok { st with history := st.history.tail }
  else .error (.valueError "No transaction in progress")

/-- `rollback_transaction` (`kk.py` 600-608): requires an active transaction;
with an empty stack it is a diagnosed no-op, otherwise it installs the most
recent snapshot as the live state. -/
def rollbackTransaction (st : GraphDatabase) : Except PyError GraphDatabase :=
  if st.transaction = some true then
    match st.history with
    | [] => .ok st
    | d :: rest => .ok { st with db := d, history := rest }
  else .error (.valueError "No transaction in progress")

/-- `stop_transaction` (`kk.py` 610-615): requires an active transaction;
moves to the stopped state (`False`, which is not `None`) and clears the
stack. -/
def stopTransaction (st : GraphDatabase) : Except PyError GraphDatabase :=
  if st.transaction = some true then
    .ok { st with transaction := some false, history := [] }
  else .error (.valueError "No transaction in progress")

/-! ## Merge-mode import (`DatabaseManager.import_database`, `kk.py` 288-311)

The per-record validation of lines 262-284 (attribute map shape, pruning of
unrecognised edge properties down to a string `label` and numeric `weight`)
is carried by the type `ImportNode`. -/

/-- One validated record of the imported nodes file. -/
structure ImportNode where
  value : Attrs
  edges : List (String × EdgeProps)
deriving DecidableEq, Repr

/-- Merge phase 1 (`kk.py` 289-294): new ids are inserted with empty
adjacency, existing ids get their attribute maps `dict.update`d. -/
def mergeNodesPhase (nodes : List (String × NodeData))
    (ins : List (String × ImportNode)) : List (String × NodeData) :=
  ins.foldl
    (fun ns p =>
      match aget ns p.1 with
      | none => aset ns p.1 { value := p.2.value, edges := [] }
      | some nd =>
        aset ns p.1
          { nd with value := p.2.value.foldl (fun a q => aset a q.1 q.2) nd.value })
    nodes

/-- One entry of merge phase 2 (`kk.py` 298-301): when the target exists,
write the imported property record symmetrically on both endpoints.  (The
importing node `id` itself always exists after phase 1, which is what
`current_db.db["nodes"][node_id]` presupposes.) -/
def mergeEdgeStep (id : String) (ns2 : List (String × NodeData))
    (e : String × EdgeProps) : List (String × NodeData) :=
  if hasKey ns2 e.1 then
    modifyNode (modifyNode ns2 id (fun nd => { nd with edges := aset nd.edges e.1 e.2 }))
      e.1 (fun nd => { nd with edges := aset nd.edges id e.2 })
  else ns2

/-- Merge phase 2 (`kk.py` 296-301): every imported adjacency entry whose
target exists is written symmetrically on both endpoints. -/
def mergeEdgesPhase (nodes : List (String × NodeData))
    (ins : List (String × ImportNode)) : List (String × NodeData) :=
  ins.foldl (fun ns p => p.2.edges.foldl (mergeEdgeStep p.1) ns) nodes

/-- Merge phase 3 (`kk.py` 303-310): union the imported index contents into
the existing maps, creating missing attributes and value keys. -/
def mergeIndexesPhase (indexes : List (String × OneIndex))
    (idxs : List (String × OneIndex)) : List (String × OneIndex) :=
  idxs.foldl
    (fun acc p =>
      let cur := (aget acc p.1).getD []
      let cur2 := p.2.foldl
        (fun c q => aset c q.1 (q.2.foldl sadd ((aget c q.1).getD [])))
        cur
      aset acc p.1 cur2)
    indexes

/-- The in-memory effect of a merge-mode import on the loaded database.
(The source performs it on a freshly constructed instance, whose
transaction state is `None`.) -/
def mergeImport (db : DB) (ins : List (String × ImportNode))
    (idxs : List (String × OneIndex)) : DB :=
  { nodes := mergeEdgesPhase (mergeNodesPhase db.nodes ins) ins,
    indexes := mergeIndexesPhase db.indexes idxs }

/-! ## The public mutating surface as one step relation -/

/-- One public operation on a `GraphDatabase` instance (plus the merge-mode
import, whose database-level effect is `mergeImport`). -/
inductive DbOp
  | opAddNode (newId : String) (value : Attrs)
  | opUpdateNode (key : String) (value : Attrs)
  | opDeleteNode (key : String)
  | opAddEdge (key1 key2 : String) (label : Option String) (weight : Option ℚ)
  | opDeleteEdge (key1 key2 : String)
  | opCreateIndex (attrName : String)
  | opDropIndex (attrName : String)
  | opBegin
  | opCommit
  | opRollback
  | opStop
  | opMergeImport (ins : List (String × ImportNode)) (idxs : List (String × OneIndex))
deriving Repr

/-- Dispatch one operation. -/
def applyOp (st : GraphDatabase) : DbOp → Except PyError GraphDatabase
  | .opAddNode newId value => addNode st newId value
  | .opUpdateNode key value => updateNode st key value
  | .opDeleteNode key => deleteNode st key
  | .opAddEdge k1 k2 label weight => addEdge st k1 k2 label weight
  | .opDeleteEdge k1 k2 => deleteEdge st k1 k2
  | .opCreateIndex a => createIndex st a
  | .opDropIndex a => dropIndex st a
  | .opBegin => beginTransaction st
  | .opCommit => commitTransaction st
  | .opRollback => rollbackTransaction st
  | .opStop => stopTransaction st
  | .opMergeImport ins idxs => .ok { st with db := mergeImport st.db ins idxs }

/-- The freshness guarantee `uuid.uuid4()` provides for `add_node`: the
generated id is not already a node key. -/
def opFresh (st : GraphDatabase) : DbOp → Bool
  | .opAddNode newId _ => ¬ hasKey st.db.nodes newId
  | _ => true

/-- Is the operation one of the five vertex/edge mutations (the operations
that take pre-image snapshots inside a transaction)? -/
def isNodeEdgeMut : DbOp → Bool
  | .opAddNode _ _ => true
  | .opUpdateNode _ _ => true
  | .opDeleteNode _ => true
  | .opAddEdge _ _ _ _ => true
  | .opDeleteEdge _ _ => true
  | _ => false

/-! ## The query engine (`GraphDatabase.query`, `kk.py` 617-907)

The model covers node-attribute conditions with the operators
`=`, `!=`, `>`, `<`, `>=`, `<=`, `IN`, `CONTAINS`.  `REGEX` conditions and
`edge.*` conditions are not modelled; planner theorems carry an explicit
"no `edge.` key" hypothesis so that they only speak about queries on which
the model and the source agree.  A condition is a key together with a
test; the literal(s) are kept textual exactly as the parser leaves them. -/

/-- The test of one parsed condition. -/
inductive QTest
  | qEq (lit : String)
  | qNe (lit : String)
  | qGt (lit : String)
  | qLt (lit : String)
  | qGe (lit : String)
  | qLe (lit : String)
  | qIn (vals : List String)
  | qContains (lit : String)
deriving DecidableEq, Repr

/-- One parsed condition `(key, op, value)`. -/
structure Cond where
  key : String
  tst : QTest
deriving DecidableEq, Repr

/-- Is the operator `=` or `IN` (the two the index plan accepts and the
candidate re-evaluation loop dispatches on)? -/
def isEqIn : QTest → Bool
  | .qEq _ => true
  | .qIn _ => true
  | _ => false

/-- Evaluate one condition against a stored scalar — the node-attribute
dispatch of the full scan (`kk.py` 836-901).  The `elif isinstance(node_val,
bool)` branches of the source (lines 841, 870, 879) are unreachable: a
Python boolean already passes the `isinstance(node_val, (int, float))`
test, which is `toNum` here.  A `none` from `parseNum` is the `ValueError`
the source catches on line 900 and re-raises on line 901. -/
def evalScalar (castNS cs : Bool) (v : Value) : QTest → Except PyError Bool
  | .qEq lit =>
    match toNum v with
    | some q =>
      match parseNum lit with
      | some n => .ok (decide (q = n))
      | none => .error (.valueError "Value cannot be compared")
    | none =>
      let s := pyStr v
      let nv := if cs then s else pyLower s
      let lv := if cs then lit else pyLower lit
      .ok (nv == lv)
  | .qNe lit =>
    match toNum v with
    | some q =>
      match parseNum lit with
      | some n => .ok (decide (¬ q = n))
      | none => .error (.valueError "Value cannot be compared")
    | none =>
      let s := pyStr v
      let nv := if cs then s else pyLower s
      let lv := if cs then lit else pyLower lit
      .ok (nv != lv)
  | .qGt lit =>
    match toNum v with
    | none => .ok false
    | some q =>
      match parseNum lit with
      | some n => .ok (decide (n < q))
      | none => .error (.valueError "Value cannot be compared")
  | .qLt lit =>
    match toNum v with
    | none => .ok false
    | some q =>
      match parseNum lit with
      | some n => .ok (decide (q < n))
      | none => .error (.valueError "Value cannot be compared")
  | .qGe lit =>
    match toNum v with
    | none => .ok false
    | some q =>
      match parseNum lit with
      | some n => .ok (decide (n ≤ q))
      | none => .error (.valueError "Value cannot be compared")
  | .qLe lit =>
    match toNum v with
    | none => .ok false
    | some q =>
      match parseNum lit with
      | some n => .ok (decide (q ≤ n))
      | none => .error (.valueError "Value cannot be compared")
  | .qIn vals =>
    match toNum v with
    | some q =>
      match vals.mapM parseNum with
      | some ns => .ok (ns.any (fun n => decide (n = q)))
      | none => .error (.valueError "Value cannot be compared")
    | none =>
      let s := pyStr v
      if cs then .ok (vals.any (fun w => w == s))
      else .ok ((vals.map pyLower).any (fun w => w == pyLower s))
  | .qContains lit =>
    let sv : Option String :=
      if castNS then some (pyStr v)
      else
        match v with
        | .vStr s => some s
        | _ => none
    match sv with
    | none => .ok false
    | some s =>
      if cs then .ok (pyContainsSub s lit)
      else .ok (pyContainsSub (pyLower s) (pyLower lit))

/-- The full-scan AND-loop over one group's conditions (`kk.py` 765-903
restricted to node attributes): a missing key fails the group, evaluation
short-circuits on the first false, and a coercion failure aborts the whole
query. -/
def scanEvalConds (castNS cs : Bool) (attrs : Attrs) :
    List Cond → Except PyError Bool
  | [] => .ok true
  | c :: rest =>
    match aget attrs c.key with
    | none => .ok false
    | some v =>
      match evalScalar castNS cs v c.tst with
      | .error e => .error e
      | .ok b => if b then scanEvalConds castNS cs attrs rest else .ok false

/-- The candidate re-evaluation AND-loop of the indexed path (`kk.py`
724-753): the same key check, but only `=` and `IN` conditions are
evaluated — any other operator leaves `matches_and` untouched.  (On this
path every condition is `=`/`IN` anyway, or the planner would have fallen
back to a scan.)  Its `=`/`IN` code is the very code of the scan loop. -/
def candEvalConds (castNS cs : Bool) (attrs : Attrs) :
    List Cond → Except PyError Bool
  | [] => .ok true
  | c :: rest =>
    match aget attrs c.key with
    | none => .ok false
    | some v =>
      if isEqIn c.tst then
        match evalScalar castNS cs v c.tst with
        | .error e => .error e
        | .ok b => if b then candEvalConds castNS cs attrs rest else .ok false
      else candEvalConds castNS cs attrs rest

/-- The equality probe key (`kk.py` 703, 712): the literal itself when
case-sensitive, otherwise its lowercased form.  Index keys, by contrast,
are never lowercased when written. -/
def probeKey (cs : Bool) (lit : String) : String :=
  if cs then lit else pyLower lit

/-- `self.db["indexes"][key].get(value_key, set())`. -/
def probeEq (db : DB) (cs : Bool) (key lit : String) : List String :=
  match aget db.indexes key with
  | none => []
  | some idx => (aget idx (probeKey cs lit)).getD []

/-- The `IN` probe (`kk.py` 710-713): union of the equality probes of the
listed literals. -/
def probeIn (db : DB) (cs : Bool) (key : String) (vals : List String) :
    List String :=
  vals.foldl (fun acc v => acc ++ (probeEq db cs key v).filter (fun x => ¬ x ∈ acc)) []

/-- `candidate_nodes := candidate_nodes ∩ nodes` with `None` meaning "not
yet constrained" (`kk.py` 705-708, 714-717). -/
def mergeCand : Option (List String) → List String → List String
  | none, s => s
  | some cur, s => cur.filter (fun x => x ∈ s)

/-- The planning loop over one AND-group (`kk.py` 695-717).  `none` is the
loop breaking out (an `edge.` key, or an operator other than `=`/`IN`, or
an unindexed key — full scan); `some acc` is the loop running to
completion with candidate set `acc`. -/
def planAux (db : DB) (cs : Bool) :
    List Cond → Option (List String) → Option (Option (List String))
  | [], acc => some acc
  | c :: rest, acc =>
    if pyStartsWith c.key "edge." then none
    else if ¬ (isEqIn c.tst ∧ hasKey db.indexes c.key) then none
    else
      match c.tst with
      | .qEq lit => planAux db cs rest (some (mergeCand acc (probeEq db cs c.key lit)))
      | .qIn vals => planAux db cs rest (some (mergeCand acc (probeIn db cs c.key vals)))
      | _ => none

/-- The plan decision for one AND-group: `some cands` takes the indexed
path with that candidate list, `none` takes the full scan (also when the
group is empty, in which case `candidate_nodes` stays `None`). -/
def planGroup (db : DB) (cs : Bool) (conds : List Cond) : Option (List String) :=
  match planAux db cs conds none with
  | some (some cands) => some cands
  | _ => none

/-- The indexed path of one OR-group (`kk.py` 719-757): walk the candidate
ids, skip already-reported ones, load the node (`self.db["nodes"][node_id]`
raises `KeyError` on a dangling index entry), re-evaluate every condition
and report the matches in discovery order. -/
def candGroupRun (db : DB) (castNS cs : Bool) (conds : List Cond) :
    List String → List String → List (String × Attrs) →
    Except PyError (List String × List (String × Attrs))
  | [], seen, res => .ok (seen, res)
  | nodeId :: rest, seen, res =>
    if nodeId ∈ seen then candGroupRun db castNS cs conds rest seen res
    else
      match aget db.nodes nodeId with
      | none => .error (.keyError "index entry references a missing node")
      | some nd =>
        match candEvalConds castNS cs nd.value conds with
        | .error e => .error e
        | .ok b =>
          if b then
            candGroupRun db castNS cs conds rest (nodeId :: seen)
              (res ++ [(nodeId, nd.value)])
          else candGroupRun db castNS cs conds rest seen res

/-- The full-scan path of one OR-group (`kk.py` 759-906 restricted to node
attributes): walk every node in insertion order, skip already-reported
ones, evaluate the whole group. -/
def scanGroupRun (castNS cs : Bool) (conds : List Cond) :
    List (String × NodeData) → List String → List (String × Attrs) →
    Except PyError (List String × List (String × Attrs))
  | [], seen, res => .ok (seen, res)
  | (nodeId, nd) :: rest, seen, res =>
    if nodeId ∈ seen then scanGroupRun castNS cs conds rest seen res
    else
      match scanEvalConds castNS cs nd.value conds with
      | .error e => .error e
      | .ok b =>
        if b then
          scanGroupRun castNS cs conds rest (nodeId :: seen)
            (res ++ [(nodeId, nd.value)])
        else scanGroupRun castNS cs conds rest seen res

/-- Run the OR-groups left to right, threading the `seen_ids` set and the
result list (`kk.py` 692-906). -/
def runGroups (db : DB) (castNS cs : Bool) :
    List (List Cond) → List String → List (String × Attrs) →
    Except PyError (List String × List (String × Attrs))
  | [], seen, res => .ok (seen, res)
  | g :: gs, seen, res =>
    match
      (match planGroup db cs g with
       | some cands => candGroupRun db castNS cs g cands seen res
       | none => scanGroupRun castNS cs g db.nodes seen res) with
    | .error e => .error e
    | .ok (s', r') => runGroups db castNS cs gs s' r'

/-- `GraphDatabase.query` on already-parsed conditions: the list of
`(node_id, node_value)` pairs. -/
def runQuery (db : DB) (orConds : List (List Cond)) (castNS cs : Bool) :
    Except PyError (List (String × Attrs)) :=
  match runGroups db castNS cs orConds [] [] with
  | .error e => .error e
  | .ok (_, res) => .ok res

/-- The same query on the same nodes with every index dropped — the pure
full-scan interpretation the refinement claims compare against. -/
def stripIndexes (db : DB) : DB :=
  { db with indexes := [] }

/-- Does any condition of any group use a (non-modelled) `edge.` key? -/
def noEdgeKeys (orConds : List (List Cond)) : Bool :=
  orConds.all (fun g => g.all (fun c => ¬ pyStartsWith c.key "edge."))

/-! ## The condition parser's operator loop (`kk.py` 643-658)

`for op in ["=", ">", "<", ">=", "<=", "!="]: if op in cond: key, value =
cond.split(op, 1); … ; break` — the first operator string that occurs
anywhere in the (stripped) condition wins, and the condition is split at
that operator's first occurrence.  The special numeric conversion for
`edge.weight` keys (lines 650-656) is not modelled — no modelled query
uses edge conditions. -/

/-- The operator list, in the source's order.  `"="` comes first. -/
def opList : List String := ["=", ">", "<", ">=", "<=", "!="]

/-- The inner loop: try each operator in order on the stripped condition. -/
def opLoopAux (cond : String) : List String → Option (String × String × String)
  | [] => none
  | op :: rest =>
    match pySplitFirst cond op with
    | some (k, v) => some (pyTrim k, op, pyTrim v)
    | none => opLoopAux cond rest

/-- Parse one `key OP literal` condition the way the source's operator loop
does: `some (key, op, literal)` with both sides stripped, `none` when no
operator occurs (the source then tries `IN`/`CONTAINS`/`REGEX`). -/
def parseCondOp (cond : String) : Option (String × String × String) :=
  opLoopAux (pyTrim cond) opList

/-! ## `find_path` (`kk.py` 568-584): breadth-first search -/

/-- The undirected neighbor list of a node, in adjacency insertion order.
On a well-formed database every popped key names an existing node (the
correctness theorems assume referential closure, `edgesClosed`); the
`none` default keeps the function total. -/
def neighborsOf (db : DB) (k : String) : List String :=
  match aget db.nodes k with
  | none => []
  | some nd => dkeys nd.edges

/-- `aget` misses exactly the keys outside the dict. -/
theorem aget_eq_none_of_not_mem {β : Type} (l : List (String × β)) (k : String)
    (h : ¬ k ∈ dkeys l) : aget l k = none := by
  induction l with
  | nil => rfl
  | cons p rest ih =>
    simp only [dkeys, List.map_cons, List.mem_cons] at h
    push_neg at h
    simp only [aget]
    rw [if_neg (fun hh => h.1 hh.symm)]
    exact ih (by simpa [dkeys] using h.2)

/-- The number of node keys not yet visited — the first component of the
BFS termination measure. -/
def unvisitedCount (db : DB) (visited : List String) : Nat :=
  ((dkeys db.nodes).filter (fun k => ¬ k ∈ visited)).length

/-- Filtering with a pointwise-smaller predicate keeps at most as many
elements. -/
theorem filter_length_le_of_imp {l : List String} {p q : String → Bool}
    (h : ∀ a, p a = true → q a = true) :
    (l.filter p).length ≤ (l.filter q).length :=
  (List.monotone_filter_right l h).length_le

/-- …and strictly fewer when some member passes `q` but not `p`. -/
theorem filter_length_lt_of_mem {l : List String} {p q : String → Bool} {c : String}
    (hmem : c ∈ l) (hpc : p c = false) (hqc : q c = true)
    (h : ∀ a, p a = true → q a = true) :
    (l.filter p).length < (l.filter q).length := by
  obtain ⟨s, t, rfl⟩ := List.append_of_mem hmem
  rw [List.filter_append, List.filter_append, List.filter_cons_of_neg (by simp [hpc]),
    List.filter_cons_of_pos hqc]
  simp only [List.length_append, List.length_cons]
  have h1 : (s.filter p).length ≤ (s.filter q).length := filter_length_le_of_imp h
  have h2 : (t.filter p).length ≤ (t.filter q).length := filter_length_le_of_imp h
  omega

/-- Visiting an unvisited node key strictly shrinks the measure. -/
theorem unvisitedCount_cons_lt (db : DB) (visited : List String) (c : String)
    (hc : c ∈ dkeys db.nodes) (hv : ¬ c ∈ visited) :
    unvisitedCount db (c :: visited) < unvisitedCount db visited := by
  apply filter_length_lt_of_mem hc
  · simp
  · simpa using hv
  · intro a ha
    simp only [decide_eq_true_eq] at ha ⊢
    exact fun hm => ha (List.mem_cons_of_mem _ hm)

/-- Visiting a key that is not a node leaves the measure unchanged. -/
theorem unvisitedCount_cons_eq (db : DB) (visited : List String) (c : String)
    (hc : ¬ c ∈ dkeys db.nodes) :
    unvisitedCount db (c :: visited) = unvisitedCount db visited := by
  unfold unvisitedCount
  congr 1
  apply List.filter_congr
  intro a ha
  have hne : ¬ a = c := fun h => hc (h ▸ ha)
  by_cases hv : a ∈ visited
  · simp [hv]
  · simp [hv, hne]

/-- The BFS loop of `find_path` (`kk.py` 575-584): pop the FIFO queue;
return the carried path on reaching the target; otherwise, if the popped
key is new, mark it visited and enqueue every unvisited neighbor with the
extended path. -/
def bfs (db : DB) (endKey : String) :
    List (String × List String) → List String → Option (List String)
  | [], _ => none
  | (c, p) :: rest, visited =>
    if c = endKey then some p
    else if c ∈ visited then bfs db endKey rest visited
    else
      bfs db endKey
        (rest ++ ((neighborsOf db c).filter (fun n => ¬ n ∈ visited)).map
          (fun n => (n, p ++ [n])))
        (c :: visited)
termination_by q visited => (unvisitedCount db visited, q.length)
decreasing_by
  · apply Prod.Lex.right
    simp
  · by_cases hc : c ∈ dkeys db.nodes
    · exact Prod.Lex.left _ _ (unvisitedCount_cons_lt db visited c hc (by assumption))
    · have hn : neighborsOf db c = [] := by
        unfold neighborsOf
        rw [aget_eq_none_of_not_mem _ _ hc]
      rw [unvisitedCount_cons_eq db visited c hc, hn]
      apply Prod.Lex.right
      simp

/-- `find_path` (`kk.py` 568-584): `KeyError` when either id is unknown,
the singleton path when source equals target, otherwise BFS from the
source. -/
def findPath (db : DB) (startKey endKey : String) :
    Except PyError (Option (List String)) :=
  if ¬ (hasKey db.nodes startKey ∧ hasKey db.nodes endKey) then
    .error (.keyError "One or both node IDs do not exist")
  else if startKey = endKey then .ok (some [startKey])
  else .ok (bfs db endKey [(startKey, [startKey])] [])

/-- `b` is listed among `a`'s neighbors. -/
def adjacentB (db : DB) (a b : String) : Bool :=
  b ∈ neighborsOf db a

/-- `p` is a vertex sequence from `a` to `b` whose consecutive pairs are
adjacent — the path notion of the specification. -/
def IsPath (db : DB) (a b : String) (p : List String) : Prop :=
  p.head? = some a ∧ p.getLast? = some b ∧ p.Chain' (fun x y => adjacentB db x y = true)

/-- Referential closure of the adjacency: every edge target is a node key
(specification invariant 3).  On such databases the total `neighborsOf`
agrees with the source, whose `self.db["nodes"][current_key]` lookup
presupposes it. -/
def edgesClosed (db : DB) : Bool :=
  db.nodes.all (fun p => p.2.edges.all (fun e => hasKey db.nodes e.1))

/-! ## `DatabaseManager.backup_database` / `export_database`
(`kk.py` 142-164, 204-234)

The file system is a map from path to content; a content carries an
abstract JSON-validity flag (`json.load` succeeds exactly on valid
content, `json.dump` writes valid content).  Operations return the
resulting file system together with an optional error; every `raise`
returns the files exactly as they were at the moment of the raise. -/

/-- A file's content: whether `json.load` would accept it, and its data. -/
structure FContent where
  valid : Bool
  payload : String
deriving DecidableEq, Repr

/-- The file system: path to content. -/
structure FileSys where
  files : List (String × FContent)
deriving DecidableEq, Repr

/-- `os.path.exists`. -/
def fsExists (fs : FileSys) (p : String) : Bool :=
  hasKey fs.files p

/-- Read a file. -/
def fsRead (fs : FileSys) (p : String) : Option FContent :=
  aget fs.files p

/-- Create or overwrite a file. -/
def fsWrite (fs : FileSys) (p : String) (c : FContent) : FileSys :=
  ⟨aset fs.files p c⟩

/-- `json.load`: the payload of a valid content. -/
def parseJson (c : FContent) : Option String :=
  if c.valid then some c.payload else none

/-- `json.dump`: valid content with the given payload. -/
def dumpJson (s : String) : FContent :=
  ⟨true, s⟩

/-- `file.replace(".json", "_nodes.json")`. -/
def nodesCompanion (f : String) : String :=
  pyReplace f ".json" "_nodes.json"

/-- `file.replace(".json", "_indexes.json")`. -/
def indexesCompanion (f : String) : String :=
  pyReplace f ".json" "_indexes.json"

/-- `backup_database` (`kk.py` 142-164): unknown name and missing source
nodes file raise; if either destination companion exists, raise before any
write; otherwise copy the nodes file and, when present, the indexes file. -/
def backupDatabase (registry : List (String × String)) (fs : FileSys)
    (dbName backupFile : String) : Option PyError × FileSys :=
  match aget registry dbName with
  | none => (some (.valueError "Database does not exist"), fs)
  | some dbFile =>
    let nodesFile := nodesCompanion dbFile
    let indexesFile := indexesCompanion dbFile
    if ¬ fsExists fs nodesFile then (some (.valueError "Nodes file not found"), fs)
    else
      let backupNodes := nodesCompanion backupFile
      let backupIndexes := indexesCompanion backupFile
      if fsExists fs backupNodes || fsExists fs backupIndexes then
        (some (.valueError "Backup files already exist"), fs)
      else
        match fsRead fs nodesFile with
        | none => (some (.valueError "Nodes file not found"), fs)
        | some c =>
          let fs1 := fsWrite fs backupNodes c
          match fsRead fs indexesFile with
          | some ci => (none, fsWrite fs1 backupIndexes ci)
          | none => (none, fs1)

/-- `export_database` (`kk.py` 204-234): the same guards; then the nodes
file is parsed and re-dumped to the destination, and the indexes file
likewise when present.  An unparseable indexes file raises after the nodes
export was already written — the returned file system shows exactly that
partial state. -/
def exportDatabase (registry : List (String × String)) (fs : FileSys)
    (dbName exportFile : String) : Option PyError × FileSys :=
  match aget registry dbName with
  | none => (some (.valueError "Database does not exist"), fs)
  | some dbFile =>
    let nodesFile := nodesCompanion dbFile
    let indexesFile := indexesCompanion dbFile
    if ¬ fsExists fs nodesFile then (some (.valueError "Nodes file not found"), fs)
    else
      let exportNodes := nodesCompanion exportFile
      let exportIndexes := indexesCompanion exportFile
      if fsExists fs exportNodes || fsExists fs exportIndexes then
        (some (.valueError "Export files already exist"), fs)
      else
        match (fsRead fs nodesFile).bind parseJson with
        | none => (some (.valueError "Failed to export database"), fs)
        | some d =>
          let fs1 := fsWrite fs exportNodes (dumpJson d)
          if fsExists fs indexesFile then
            match (fsRead fs indexesFile).bind parseJson with
            | none => (some (.valueError "Failed to export database"), fs1)
            | some d2 => (none, fsWrite fs1 exportIndexes (dumpJson d2))
          else (none, fs1)

/-! ## Groundwork lemmas on the dict model -/

theorem aget_aset_self {β : Type} (l : List (String × β)) (k : String) (v : β) :
    aget (aset l k v) k = some v := by
  induction l with
  | nil => simp [aset, aget]
  | cons p rest ih =>
    by_cases h : p.1 = k
    · simp [aset, aget, h]
    · simp only [aset, aget, if_neg h]
      exact ih

theorem aget_aset_ne {β : Type} (l : List (String × β)) (k k' : String) (v : β)
    (h : ¬ k = k') : aget (aset l k v) k' = aget l k' := by
  induction l with
  | nil => simp [aset, aget, h]
  | cons p rest ih =>
    by_cases hp : p.1 = k
    · have hp' : ¬ p.1 = k' := fun hh => h (hp ▸ hh)
      simp only [aset, if_pos hp, aget, if_neg h, if_neg hp']
    · simp only [aset, if_neg hp, aget]
      by_cases hp' : p.1 = k'
      · simp only [if_pos hp']
      · simp only [if_neg hp']
        exact ih

theorem aget_aerase_ne {β : Type} (l : List (String × β)) (k k' : String)
    (h : ¬ k = k') : aget (aerase l k) k' = aget l k' := by
  induction l with
  | nil => rfl
  | cons p rest ih =>
    by_cases hp : p.1 = k
    · have hp' : ¬ p.1 = k' := fun hh => h (hp ▸ hh)
      simp only [aerase, if_pos hp, aget, if_neg hp']
    · simp only [aerase, if_neg hp, aget]
      by_cases hp' : p.1 = k'
      · simp only [if_pos hp']
      · simp only [if_neg hp']
        exact ih

theorem dkeys_aerase_sublist {β : Type} (l : List (String × β)) (k : String) :
    List.Sublist (dkeys (aerase l k)) (dkeys l) := by
  induction l with
  | nil => simp [aerase]
  | cons p rest ih =>
    by_cases hp : p.1 = k
    · simp only [aerase, if_pos hp]
      exact List.sublist_cons_self _ _
    · simp only [aerase, if_neg hp]
      simpa [dkeys] using ih.cons_cons p.1

theorem aget_aerase_self {β : Type} (l : List (String × β)) (k : String)
    (h : (dkeys l).Nodup) : aget (aerase l k) k = none := by
  induction l with
  | nil => rfl
  | cons p rest ih =>
    simp only [dkeys, List.map_cons, List.nodup_cons] at h
    by_cases hp : p.1 = k
    · simp only [aerase, if_pos hp]
      apply aget_eq_none_of_not_mem
      rw [← hp]
      exact h.1
    · simp only [aerase, if_neg hp, aget]
      exact ih h.2

theorem mem_dkeys_aset {β : Type} (l : List (String × β)) (k : String) (v : β)
    (x : String) (h : x ∈ dkeys (aset l k v)) : x ∈ dkeys l ∨ x = k := by
  induction l with
  | nil => simpa [aset, dkeys] using h
  | cons p rest ih =>
    by_cases hp : p.1 = k
    · simp only [aset, if_pos hp] at h
      simp only [dkeys, List.map_cons, List.mem_cons] at h ⊢
      rcases h with h | h
      · exact Or.inr h
      · exact Or.inl (Or.inr h)
    · simp only [aset, if_neg hp] at h
      simp only [dkeys, List.map_cons, List.mem_cons] at h ⊢
      rcases h with h | h
      · exact Or.inl (Or.inl h)
      · rcases ih h with h' | h'
        · exact Or.inl (Or.inr h')
        · exact Or.inr h'

theorem dkeys_aset_nodup {β : Type} (l : List (String × β)) (k : String) (v : β)
    (h : (dkeys l).Nodup) : (dkeys (aset l k v)).Nodup := by
  induction l with
  | nil => simp [aset, dkeys]
  | cons p rest ih =>
    simp only [dkeys, List.map_cons, List.nodup_cons] at h
    by_cases hp : p.1 = k
    · simp only [aset, if_pos hp]
      simp only [dkeys, List.map_cons, List.nodup_cons]
      exact ⟨hp ▸ h.1, h.2⟩
    · simp only [aset, if_neg hp]
      simp only [dkeys, List.map_cons, List.nodup_cons]
      refine ⟨fun hmem => ?_, ih h.2⟩
      rcases mem_dkeys_aset rest k v p.1 hmem with h' | h'
      · exact absurd h' h.1
      · exact hp h'

theorem aget_mem {β : Type} (l : List (String × β)) (k : String) (v : β)
    (h : aget l k = some v) : (k, v) ∈ l := by
  induction l with
  | nil => simp [aget] at h
  | cons p rest ih =>
    by_cases hp : p.1 = k
    · rw [aget, if_pos hp] at h
      have hpv : p = (k, v) := by
        cases p
        simp only [Option.some.injEq] at h
        simp_all
      exact hpv ▸ List.mem_cons_self _ _
    · rw [aget, if_neg hp] at h
      exact List.mem_cons_of_mem _ (ih h)

theorem aget_isSome_of_mem {β : Type} (l : List (String × β)) (k : String) (v : β)
    (h : (k, v) ∈ l) : (aget l k).isSome = true := by
  induction l with
  | nil => cases h
  | cons p rest ih =>
    rcases List.mem_cons.mp h with h' | h'
    · rw [← h', aget, if_pos rfl]
      rfl
    · rw [aget]
      by_cases hp : p.1 = k
      · rw [if_pos hp]; rfl
      · rw [if_neg hp]; exact ih h'

theorem aget_mem_dkeys {β : Type} (l : List (String × β)) (k : String) (v : β)
    (h : aget l k = some v) : k ∈ dkeys l := by
  have := aget_mem l k v h
  exact List.mem_map_of_mem Prod.fst this

/-! ## Concrete states used by counterexamples and witnesses -/

/-- A fresh, empty instance. -/
def exEmptySt : GraphDatabase := ⟨⟨[], []⟩, none, []⟩

/-- One node whose `flag` attribute is the boolean `True`. -/
def exFlagDb : DB := ⟨[("f1", ⟨[("flag", .vBool true)], []⟩)], []⟩

/-- One node named `Alice`, no indexes. -/
def exAliceDb : DB := ⟨[("n1", ⟨[("name", .vStr "Alice")], []⟩)], []⟩

/-- The three-node state of the specification's index scenario: ages 30,
25, 30. -/
def exAgesDb : DB :=
  ⟨[("a", ⟨[("name", .vStr "Alice"), ("age", .vInt 30)], []⟩),
    ("b", ⟨[("name", .vStr "Bob"), ("age", .vInt 25)], []⟩),
    ("c", ⟨[("name", .vStr "C"), ("age", .vInt 30)], []⟩)], []⟩

/-- `exAgesDb` after `create_index("age")`. -/
def exAgesIdxDb : DB :=
  ⟨exAgesDb.nodes, [("age", [("30", ["a", "c"]), ("25", ["b"])])]⟩

/-! ## Claim C1 -/

/-- Claim C1 (code_bug): the operator loop of the condition parser tries
`"="` first, and `"="` occurs inside `"!="`, `">="` and `"<="`; so a
condition written with any of those three operators is split at the bare
`=` instead, leaving the operator's other character glued to the key.
Only `=`, `>` and `<` (and the word operators) can ever be produced.
This theorem evaluates the parser at the failing inputs. -/
theorem parse_neq_geq_leq_misparsed :
    parseCondOp "age != 30" = some ("age !", "=", "30") ∧
    parseCondOp "age >= 30" = some ("age >", "=", "30") ∧
    parseCondOp "age <= 30" = some ("age <", "=", "30") ∧
    parseCondOp "age > 30" = some ("age", ">", "30") ∧
    parseCondOp "age = 30" = some ("age", "=", "30") :=
  ⟨rfl, rfl, rfl, rfl, rfl⟩

/-! ## Claim C2 -/

/-- Claim C2 (code_bug): `add_node` writes index entries under the plain
`str(value)` key but `delete_node` removes them under `str(value).lower()`;
with an index on `name`, adding `{name: "Alice"}` and deleting that node
leaves the node id in the index under the key `"Alice"` — the index still
contains the deleted vertex. -/
theorem deleteNode_index_leak :
    (do
      let s1 ← createIndex exEmptySt "name"
      let s2 ← addNode s1 "n1" [("name", .vStr "Alice")]
      deleteNode s2 "n1") =
    Except.ok (⟨⟨[], [("name", [("Alice", ["n1"])])]⟩, none, []⟩ : GraphDatabase) :=
  rfl

/-! ## Claim C8 -/

/-- Claim C8 (code_bug): on a stored boolean, an `=` condition takes the
numeric branch (`isinstance(True, int)` holds in Python), so the literal
`"true"` goes through `int("true")`, which raises; the
`elif isinstance(node_val, bool)` branch is dead code.  `WHERE flag = true`
on a node with boolean `flag` raises `ValueError` instead of matching. -/
theorem bool_eq_query_raises :
    runQuery exFlagDb [[⟨"flag", .qEq "true"⟩]] false false =
      .error (.valueError "Value cannot be compared") :=
  rfl

/-! ## Claim C7 -/

/-- Claim C7, counterexample: a stored boolean is numeric to the order
comparisons (`0`/`1`), so `WHERE flag > 0` matches a node whose `flag` is
`True` — the condition does not evaluate to false as claimed. -/
theorem order_cmp_bool_counterexample :
    runQuery exFlagDb [[⟨"flag", .qGt "0"⟩]] false false =
      .ok [("f1", [("flag", .vBool true)])] :=
  rfl

/-- Claim C7 (amended): an order comparison on a stored string evaluates
to false and never raises; a stored boolean however is treated as the
number 0 or 1 — the literal is parsed numerically (raising `ValueError`
when unparseable) and compared. -/
theorem order_cmp_string_false_bool_numeric :
    (∀ (castNS cs : Bool) (s lit : String),
      evalScalar castNS cs (.vStr s) (.qGt lit) = .ok false ∧
      evalScalar castNS cs (.vStr s) (.qLt lit) = .ok false ∧
      evalScalar castNS cs (.vStr s) (.qGe lit) = .ok false ∧
      evalScalar castNS cs (.vStr s) (.qLe lit) = .ok false) ∧
    (∀ (castNS cs : Bool) (b : Bool) (lit : String),
      evalScalar castNS cs (.vBool b) (.qGt lit) =
        (match parseNum lit with
         | some n => .ok (decide (n < (if b then (1 : ℚ) else 0)))
         | none => .error (.valueError "Value cannot be compared")) ∧
      evalScalar castNS cs (.vBool b) (.qLt lit) =
        (match parseNum lit with
         | some n => .ok (decide ((if b then (1 : ℚ) else 0) < n))
         | none => .error (.valueError "Value cannot be compared")) ∧
      evalScalar castNS cs (.vBool b) (.qGe lit) =
        (match parseNum lit with
         | some n => .ok (decide (n ≤ (if b then (1 : ℚ) else 0)))
         | none => .error (.valueError "Value cannot be compared")) ∧
      evalScalar castNS cs (.vBool b) (.qLe lit) =
        (match parseNum lit with
         | some n => .ok (decide ((if b then (1 : ℚ) else 0) ≤ n))
         | none => .error (.valueError "Value cannot be compared"))) :=
  ⟨fun _ _ _ _ => ⟨rfl, rfl, rfl, rfl⟩, fun _ _ _ _ => ⟨rfl, rfl, rfl, rfl⟩⟩

/-! ## Field lemmas for the mutating operations -/

theorem snapIfTx_db (st : GraphDatabase) : (snapIfTx st).db = st.db := by
  unfold snapIfTx
  split <;> rfl

theorem snapIfTx_transaction (st : GraphDatabase) :
    (snapIfTx st).transaction = st.transaction := by
  unfold snapIfTx
  split <;> rfl

theorem snapIfTx_history_tx (st : GraphDatabase) (h : st.transaction = some true) :
    (snapIfTx st).history = st.db :: st.history := by
  unfold snapIfTx
  rw [if_pos h]

theorem addNode_ok_fields {st : GraphDatabase} {newId : String} {value : Attrs}
    {st' : GraphDatabase} (h : addNode st newId value = .ok st') :
    st'.transaction = st.transaction ∧ st'.history = (snapIfTx st).history := by
  unfold addNode at h
  split at h
  · exact Except.noConfusion h
  · simp only [Except.ok.injEq] at h
    subst h
    exact ⟨snapIfTx_transaction st, rfl⟩

theorem updateNode_ok_fields {st : GraphDatabase} {key : String} {value : Attrs}
    {st' : GraphDatabase} (h : updateNode st key value = .ok st') :
    st'.transaction = st.transaction ∧ st'.history = (snapIfTx st).history := by
  unfold updateNode at h
  split at h
  · exact Except.noConfusion h
  · split at h
    · exact Except.noConfusion h
    · simp only [Except.ok.injEq] at h
      subst h
      exact ⟨snapIfTx_transaction st, rfl⟩

theorem deleteNode_ok_fields {st : GraphDatabase} {key : String}
    {st' : GraphDatabase} (h : deleteNode st key = .ok st') :
    st'.transaction = st.transaction ∧ st'.history = (snapIfTx st).history := by
  unfold deleteNode at h
  split at h
  · exact Except.noConfusion h
  · dsimp only at h
    split at h
    · exact Except.noConfusion h
    · simp only [Except.ok.injEq] at h
      subst h
      exact ⟨snapIfTx_transaction st, rfl⟩

theorem addEdge_ok_fields {st : GraphDatabase} {k1 k2 : String}
    {label : Option String} {weight : Option ℚ} {st' : GraphDatabase}
    (h : addEdge st k1 k2 label weight = .ok st') :
    st'.transaction = st.transaction ∧ st'.history = (snapIfTx st).history := by
  unfold addEdge at h
  split at h
  · exact Except.noConfusion h
  · split at h
    · exact Except.noConfusion h
    · split at h
      · exact Except.noConfusion h
      · simp only [Except.ok.injEq] at h
        subst h
        exact ⟨snapIfTx_transaction st, rfl⟩

theorem deleteEdge_ok_fields {st : GraphDatabase} {k1 k2 : String}
    {st' : GraphDatabase} (h : deleteEdge st k1 k2 = .ok st') :
    st'.transaction = st.transaction ∧ st'.history = (snapIfTx st).history := by
  unfold deleteEdge at h
  split at h
  · exact Except.noConfusion h
  · split at h
    · exact Except.noConfusion h
    · dsimp only at h
      split at h
      · exact Except.noConfusion h
      · split at h
        · simp only [Except.ok.injEq] at h
          subst h
          exact ⟨snapIfTx_transaction st, rfl⟩
        · exact Except.noConfusion h

theorem createIndex_ok_fields {st : GraphDatabase} {a : String}
    {st' : GraphDatabase} (h : createIndex st a = .ok st') :
    st'.transaction = st.transaction ∧ st'.history = st.history ∧
      st'.db.nodes = st.db.nodes := by
  unfold createIndex at h
  split at h
  · exact Except.noConfusion h
  · split at h
    · exact Except.noConfusion h
    · simp only [Except.ok.injEq] at h
      subst h
      exact ⟨rfl, rfl, rfl⟩

theorem dropIndex_ok_fields {st : GraphDatabase} {a : String}
    {st' : GraphDatabase} (h : dropIndex st a = .ok st') :
    st'.transaction = st.transaction ∧ st'.history = st.history ∧
      st'.db.nodes = st.db.nodes := by
  unfold dropIndex at h
  split at h
  · exact Except.noConfusion h
  · simp only [Except.ok.injEq] at h
    subst h
    exact ⟨rfl, rfl, rfl⟩

/-! ## Claim C9 -/

/-- Claim C9 (confirmed): `stop_transaction` moves the flag to `False`;
in that state `begin_transaction` refuses (`False is not None`), and
`commit`/`rollback`/`stop` refuse (`not False`); and no operation ever
returns the flag to `None`, so once stopped, no transaction can ever be
opened again on the instance. -/
theorem stopped_transaction_locked :
    (∀ st st' : GraphDatabase, stopTransaction st = .ok st' →
      st'.transaction = some false) ∧
    (∀ st : GraphDatabase, st.transaction = some false →
      (∃ e, beginTransaction st = .error e) ∧
      (∃ e, commitTransaction st = .error e) ∧
      (∃ e, rollbackTransaction st = .error e) ∧
      (∃ e, stopTransaction st = .error e)) ∧
    (∀ (st : GraphDatabase) (op : DbOp) (st' : GraphDatabase),
      st.transaction = some false → applyOp st op = .ok st' →
      st'.transaction = some false) := by
  refine ⟨?_, ?_, ?_⟩
  · intro st st' h
    unfold stopTransaction at h
    split at h
    · simp only [Except.ok.injEq] at h
      subst h
      rfl
    · exact Except.noConfusion h
  · intro st hst
    refine ⟨⟨.valueError "Transaction already in progress", ?_⟩,
      ⟨.valueError "No transaction in progress", ?_⟩,
      ⟨.valueError "No transaction in progress", ?_⟩,
      ⟨.valueError "No transaction in progress", ?_⟩⟩
    · unfold beginTransaction
      rw [hst]
    · unfold commitTransaction
      rw [if_neg (by simp [hst])]
    · unfold rollbackTransaction
      rw [if_neg (by simp [hst])]
    · unfold stopTransaction
      rw [if_neg (by simp [hst])]
  · intro st op st' hst h
    cases op with
    | opAddNode i v => rw [(addNode_ok_fields h).1, hst]
    | opUpdateNode k v => rw [(updateNode_ok_fields h).1, hst]
    | opDeleteNode k => rw [(deleteNode_ok_fields h).1, hst]
    | opAddEdge a b l w => rw [(addEdge_ok_fields h).1, hst]
    | opDeleteEdge a b => rw [(deleteEdge_ok_fields h).1, hst]
    | opCreateIndex a => rw [(createIndex_ok_fields h).1, hst]
    | opDropIndex a => rw [(dropIndex_ok_fields h).1, hst]
    | opBegin =>
      simp only [applyOp] at h
      unfold beginTransaction at h
      rw [hst] at h
      exact Except.noConfusion h
    | opCommit =>
      simp only [applyOp] at h
      unfold commitTransaction at h
      rw [if_neg (by simp [hst])] at h
      exact Except.noConfusion h
    | opRollback =>
      simp only [applyOp] at h
      unfold rollbackTransaction at h
      rw [if_neg (by simp [hst])] at h
      exact Except.noConfusion h
    | opStop =>
      simp only [applyOp] at h
      unfold stopTransaction at h
      rw [if_neg (by simp [hst])] at h
      exact Except.noConfusion h
    | opMergeImport ins idxs =>
      simp only [applyOp, Except.ok.injEq] at h
      subst h
      exact hst

/-- Claim C9, witness: in a concretely stopped state all four transaction
commands refuse. -/
theorem stopped_transaction_locked_witness :
    (∃ e, beginTransaction ⟨exAliceDb, some false, []⟩ = .error e) ∧
    (∃ e, commitTransaction ⟨exAliceDb, some false, []⟩ = .error e) ∧
    (∃ e, rollbackTransaction ⟨exAliceDb, some false, []⟩ = .error e) ∧
    (∃ e, stopTransaction ⟨exAliceDb, some false, []⟩ = .error e) :=
  stopped_transaction_locked.2.1 ⟨exAliceDb, some false, []⟩ rfl

/-! ## Claim C5 -/

/-- `⟨exAliceDb, some true, []⟩`: an open, active transaction over the
one-node database, nothing yet snapshotted. -/
def exTxAliceSt : GraphDatabase := ⟨exAliceDb, some true, []⟩

/-- The state after `create_index("name")` inside that transaction. -/
def exTxIdxSt : GraphDatabase :=
  ⟨⟨exAliceDb.nodes, [("name", [("Alice", ["n1"])])]⟩, some true, []⟩

/-- Claim C5, counterexample: `create_index` is a successful state
mutation, yet inside an open, active transaction it pushes no snapshot
(the history stays empty) and the subsequent `rollback_transaction` is a
no-op — the database still carries the index, so mutation-then-rollback is
not the identity on the database state. -/
theorem createIndex_rollback_counterexample :
    beginTransaction ⟨exAliceDb, none, []⟩ = .ok exTxAliceSt ∧
    createIndex exTxAliceSt "name" = .ok exTxIdxSt ∧
    exTxIdxSt.history = [] ∧
    rollbackTransaction exTxIdxSt = .ok exTxIdxSt ∧
    ¬ exTxIdxSt.db = exTxAliceSt.db :=
  ⟨rfl, rfl, rfl, rfl, by decide⟩

/-- Claim C5 (amended): while a transaction is open and active, every
successful vertex/edge mutation (`add_node`, `update_node`, `delete_node`,
`add_edge`, `delete_edge`) pushes a copy of the whole database state onto
the snapshot stack before applying its changes, and a subsequent rollback
restores exactly the pre-mutation state — the index DDL operations
(`create_index`/`drop_index`) mutate without snapshotting and are not
undone by rollback. -/
theorem mutation_snapshot_rollback :
    ∀ (st : GraphDatabase) (op : DbOp) (st' : GraphDatabase),
      isNodeEdgeMut op = true → st.transaction = some true →
      applyOp st op = .ok st' →
      st'.history = st.db :: st.history ∧
      rollbackTransaction st' = .ok ⟨st.db, st.transaction, st.history⟩ := by
  intro st op st' hmut htx h
  have hfields : st'.transaction = st.transaction ∧ st'.history = (snapIfTx st).history := by
    cases op with
    | opAddNode i v => exact addNode_ok_fields h
    | opUpdateNode k v => exact updateNode_ok_fields h
    | opDeleteNode k => exact deleteNode_ok_fields h
    | opAddEdge a b l w => exact addEdge_ok_fields h
    | opDeleteEdge a b => exact deleteEdge_ok_fields h
    | opCreateIndex a => exact absurd hmut (by simp [isNodeEdgeMut])
    | opDropIndex a => exact absurd hmut (by simp [isNodeEdgeMut])
    | opBegin => exact absurd hmut (by simp [isNodeEdgeMut])
    | opCommit => exact absurd hmut (by simp [isNodeEdgeMut])
    | opRollback => exact absurd hmut (by simp [isNodeEdgeMut])
    | opStop => exact absurd hmut (by simp [isNodeEdgeMut])
    | opMergeImport ins idxs => exact absurd hmut (by simp [isNodeEdgeMut])
  have hhist : st'.history = st.db :: st.history := by
    rw [hfields.2, snapIfTx_history_tx st htx]
  refine ⟨hhist, ?_⟩
  unfold rollbackTransaction
  rw [if_pos (by rw [hfields.1, htx]), hhist]
  dsimp only
  rw [hfields.1, htx]

/-- Claim C5, witness: a concrete `add_node` inside an open transaction
pushes the pre-image and rolls back to it. -/
theorem mutation_snapshot_rollback_witness :
    (addNode exTxAliceSt "n2" [("name", .vStr "Bob")] >>= rollbackTransaction) =
      .ok exTxAliceSt := by
  have h := mutation_snapshot_rollback exTxAliceSt (.opAddNode "n2" [("name", .vStr "Bob")])
    ⟨⟨aset exAliceDb.nodes "n2" ⟨[("name", .vStr "Bob")], []⟩, []⟩, some true, [exAliceDb]⟩
    rfl rfl rfl
  calc (addNode exTxAliceSt "n2" [("name", .vStr "Bob")] >>= rollbackTransaction)
      = rollbackTransaction
          ⟨⟨aset exAliceDb.nodes "n2" ⟨[("name", .vStr "Bob")], []⟩, []⟩, some true, [exAliceDb]⟩ := rfl
    _ = .ok exTxAliceSt := h.2

/-! ## Claim C10 -/

/-- Claim C10 (confirmed): `backup_database` and `export_database` check
the two destination companion paths before writing anything; if either
already exists, both operations raise `ValueError` and the file system is
returned exactly as it was — no file is created, modified or deleted.
(Theorems like this one hold for every early `raise` of the two functions:
the model threads the file system through every exit.) -/
theorem backup_export_no_overwrite :
    ∀ (registry : List (String × String)) (fs : FileSys) (dbName dest : String),
      (fsExists fs (nodesCompanion dest) || fsExists fs (indexesCompanion dest)) = true →
      (∃ e, backupDatabase registry fs dbName dest = (some e, fs)) ∧
      (∃ e, exportDatabase registry fs dbName dest = (some e, fs)) := by
  intro registry fs dbName dest hdest
  constructor
  · unfold backupDatabase
    cases haget : aget registry dbName with
    | none => exact ⟨_, rfl⟩
    | some dbFile =>
      dsimp only
      by_cases hn : fsExists fs (nodesCompanion dbFile)
      · rw [if_neg (by simpa using hn), if_pos hdest]
        exact ⟨_, rfl⟩
      · rw [if_pos (by simpa using hn)]
        exact ⟨_, rfl⟩
  · unfold exportDatabase
    cases haget : aget registry dbName with
    | none => exact ⟨_, rfl⟩
    | some dbFile =>
      dsimp only
      by_cases hn : fsExists fs (nodesCompanion dbFile)
      · rw [if_neg (by simpa using hn), if_pos hdest]
        exact ⟨_, rfl⟩
      · rw [if_pos (by simpa using hn)]
        exact ⟨_, rfl⟩

/-- Claim C10, witness: with `bak_nodes.json` already present, backing up
or exporting `mydb` to `bak.json` errors and leaves the two files as they
were. -/
theorem backup_export_no_overwrite_witness :
    (∃ e, backupDatabase [("mydb", "db.json")]
        ⟨[("db_nodes.json", ⟨true, "N"⟩), ("bak_nodes.json", ⟨true, "B"⟩)]⟩
        "mydb" "bak.json" =
      (some e, ⟨[("db_nodes.json", ⟨true, "N"⟩), ("bak_nodes.json", ⟨true, "B"⟩)]⟩)) ∧
    (∃ e, exportDatabase [("mydb", "db.json")]
        ⟨[("db_nodes.json", ⟨true, "N"⟩), ("bak_nodes.json", ⟨true, "B"⟩)]⟩
        "mydb" "bak.json" =
      (some e, ⟨[("db_nodes.json", ⟨true, "N"⟩), ("bak_nodes.json", ⟨true, "B"⟩)]⟩)) :=
  backup_export_no_overwrite [("mydb", "db.json")]
    ⟨[("db_nodes.json", ⟨true, "N"⟩), ("bak_nodes.json", ⟨true, "B"⟩)]⟩
    "mydb" "bak.json" (by rfl)

/-! ## The adjacency invariant: symmetry, closure, key uniqueness -/

/-- The property record stored on the adjacency entry `a → b`. -/
def edgeOfN (ns : List (String × NodeData)) (a b : String) : Option EdgeProps :=
  (aget ns a).bind (fun nd => aget nd.edges b)

/-- The adjacency is symmetric and the records on the two sides are equal:
`edgeOfN ns a b = edgeOfN ns b a` says at once that `b` is a neighbor of
`a` iff `a` is one of `b`, and that the two property records agree. -/
def SymN (ns : List (String × NodeData)) : Prop :=
  ∀ a b, edgeOfN ns a b = edgeOfN ns b a

/-- Every adjacency target is an existing node (spec invariant 3). -/
def ClosedN (ns : List (String × NodeData)) : Prop :=
  ∀ a b, (edgeOfN ns a b).isSome = true → (aget ns b).isSome = true

/-- The dict model's key uniqueness, for the node map and every adjacency
map. -/
def NodupN (ns : List (String × NodeData)) : Prop :=
  (dkeys ns).Nodup ∧ ∀ p ∈ ns, (dkeys p.2.edges).Nodup

/-- The well-formedness every reachable database satisfies. -/
def WFN (ns : List (String × NodeData)) : Prop :=
  NodupN ns ∧ SymN ns ∧ ClosedN ns

/-- Well-formedness of a whole instance: the live state and every snapshot
on the transaction stack. -/
def WFst (st : GraphDatabase) : Prop :=
  WFN st.db.nodes ∧ ∀ d ∈ st.history, WFN d.nodes

/-- One-shot description of a dict write. -/
theorem aget_aset_char {β : Type} (l : List (String × β)) (k a : String) (v : β) :
    aget (aset l k v) a = if k = a then some v else aget l a := by
  by_cases h : k = a
  · rw [if_pos h, h, aget_aset_self]
  · rw [if_neg h, aget_aset_ne l k a v h]

/-- One-shot description of a record rewrite: missing keys stay missing
(`Option.map`), present keys get the rewritten record. -/
theorem aget_modifyNode_char (ns : List (String × NodeData)) (k a : String)
    (f : NodeData → NodeData) :
    aget (modifyNode ns k f) a =
      if k = a then (aget ns k).map f else aget ns a := by
  unfold modifyNode
  cases hk : aget ns k with
  | none =>
    by_cases h : k = a
    · rw [if_pos h, ← h, hk]
      rfl
    · rw [if_neg h]
  | some nd =>
    rw [aget_aset_char]
    by_cases h : k = a
    · rw [if_pos h, if_pos h]
      rfl
    · rw [if_neg h, if_neg h]

/-- One-shot description of a dict delete, given unique keys. -/
theorem aget_aerase_char {β : Type} (l : List (String × β)) (k a : String)
    (h : (dkeys l).Nodup) :
    aget (aerase l k) a = if k = a then none else aget l a := by
  by_cases hk : k = a
  · rw [if_pos hk, hk, aget_aerase_self l a h]
  · rw [if_neg hk, aget_aerase_ne l k a hk]

/-- With unique keys, membership is lookup. -/
theorem aget_of_mem_nodup {β : Type} (l : List (String × β)) (k : String) (v : β)
    (hnd : (dkeys l).Nodup) (h : (k, v) ∈ l) : aget l k = some v := by
  induction l with
  | nil => cases h
  | cons p rest ih =>
    simp only [dkeys, List.map_cons, List.nodup_cons] at hnd
    rcases List.mem_cons.mp h with h' | h'
    · rw [← h', aget, if_pos rfl]
    · rw [aget]
      by_cases hp : p.1 = k
      · exfalso
        apply hnd.1
        rw [hp]
        exact List.mem_map_of_mem Prod.fst h'
      · rw [if_neg hp]
        exact ih hnd.2 h'

/-- Members of `aset l k v` are old members or the new pair. -/
theorem mem_aset {β : Type} (l : List (String × β)) (k : String) (v : β)
    (p : String × β) (h : p ∈ aset l k v) : p ∈ l ∨ p = (k, v) := by
  induction l with
  | nil => simpa [aset] using h
  | cons q rest ih =>
    by_cases hq : q.1 = k
    · simp only [aset, if_pos hq] at h
      rcases List.mem_cons.mp h with h' | h'
      · exact Or.inr h'
      · exact Or.inl (List.mem_cons_of_mem _ h')
    · simp only [aset, if_neg hq] at h
      rcases List.mem_cons.mp h with h' | h'
      · exact Or.inl (h' ▸ List.mem_cons_self _ _)
      · rcases ih h' with h'' | h''
        · exact Or.inl (List.mem_cons_of_mem _ h'')
        · exact Or.inr h''

/-- Members of `modifyNode ns k f` are old members or the rewritten record
of `k`. -/
theorem mem_modifyNode (ns : List (String × NodeData)) (k : String)
    (f : NodeData → NodeData) (p : String × NodeData) (h : p ∈ modifyNode ns k f) :
    p ∈ ns ∨ ∃ nd, aget ns k = some nd ∧ p = (k, f nd) := by
  unfold modifyNode at h
  cases hk : aget ns k with
  | none =>
    rw [hk] at h
    exact Or.inl h
  | some nd =>
    rw [hk] at h
    rcases mem_aset ns k (f nd) p h with h' | h'
    · exact Or.inl h'
    · exact Or.inr ⟨nd, rfl, h'⟩

/-- `modifyNode` keeps the key set: presence is unchanged. -/
theorem aget_modifyNode_isSome (ns : List (String × NodeData)) (k a : String)
    (f : NodeData → NodeData) :
    (aget (modifyNode ns k f) a).isSome = (aget ns a).isSome := by
  rw [aget_modifyNode_char]
  by_cases h : k = a
  · rw [if_pos h, ← h]
    cases aget ns k <;> rfl
  · rw [if_neg h]

/-- `modifyNode` preserves key uniqueness of the node map. -/
theorem dkeys_modifyNode_nodup (ns : List (String × NodeData)) (k : String)
    (f : NodeData → NodeData) (h : (dkeys ns).Nodup) :
    (dkeys (modifyNode ns k f)).Nodup := by
  unfold modifyNode
  cases aget ns k with
  | none => exact h
  | some nd => exact dkeys_aset_nodup ns k (f nd) h

/-- The symmetry invariant as an executable check, for concrete witnesses:
key uniqueness, and for every adjacency entry an equal reverse entry. -/
def wfNCheck (ns : List (String × NodeData)) : Bool :=
  decide ((dkeys ns).Nodup) &&
  ns.all (fun p =>
    decide ((dkeys p.2.edges).Nodup) &&
    p.2.edges.all (fun e =>
      match aget ns e.1 with
      | none => false
      | some nd' => decide (aget nd'.edges p.1 = some e.2)))

/-- Soundness of the executable check. -/
theorem wfNCheck_sound (ns : List (String × NodeData)) (h : wfNCheck ns = true) :
    WFN ns := by
  unfold wfNCheck at h
  rw [Bool.and_eq_true] at h
  obtain ⟨hnd, hall⟩ := h
  rw [List.all_eq_true] at hall
  have hnd' : (dkeys ns).Nodup := of_decide_eq_true hnd
  have hedge : ∀ p ∈ ns, ∀ e ∈ p.2.edges,
      ∃ nd', aget ns e.1 = some nd' ∧ aget nd'.edges p.1 = some e.2 := by
    intro p hp e he
    have := hall p hp
    rw [Bool.and_eq_true, List.all_eq_true] at this
    have h2 := this.2 e he
    cases hk : aget ns e.1 with
    | none =>
      rw [hk] at h2
      exact absurd h2 (by simp)
    | some nd' =>
      rw [hk] at h2
      exact ⟨nd', rfl, of_decide_eq_true h2⟩
  have hfwd : ∀ a b p, edgeOfN ns a b = some p → edgeOfN ns b a = some p := by
    intro a b p hab
    unfold edgeOfN at hab ⊢
    cases ha : aget ns a with
    | none => rw [ha] at hab; exact absurd hab (by simp)
    | some nda =>
      rw [ha] at hab
      simp only [Option.some_bind] at hab
      obtain ⟨nd', hb, hrev⟩ := hedge (a, nda) (aget_mem ns a nda ha) (b, p)
        (aget_mem nda.edges b p hab)
      rw [hb]
      simpa using hrev
  refine ⟨⟨hnd', ?_⟩, ?_, ?_⟩
  · intro p hp
    have := hall p hp
    rw [Bool.and_eq_true] at this
    exact of_decide_eq_true this.1
  · intro a b
    cases hab : edgeOfN ns a b with
    | some p => rw [hfwd a b p hab]
    | none =>
      cases hba : edgeOfN ns b a with
      | none => rfl
      | some q => rw [hfwd b a q hba] at hab; exact absurd hab (by simp)
  · intro a b hab
    unfold edgeOfN at hab
    cases ha : aget ns a with
    | none => rw [ha] at hab; exact absurd hab (by simp)
    | some nda =>
      rw [ha] at hab
      simp only [Option.some_bind, Option.isSome_iff_exists] at hab
      obtain ⟨p, hp⟩ := hab
      obtain ⟨nd', hb, _⟩ := hedge (a, nda) (aget_mem ns a nda ha) (b, p)
        (aget_mem nda.edges b p hp)
      rw [hb]
      rfl

/-- `aerase` returns a sublist. -/
theorem aerase_sublist {β : Type} (l : List (String × β)) (k : String) :
    List.Sublist (aerase l k) l := by
  induction l with
  | nil => simp [aerase]
  | cons p rest ih =>
    by_cases hp : p.1 = k
    · simp only [aerase, if_pos hp]
      exact List.sublist_cons_self _ _
    · simp only [aerase, if_neg hp]
      exact ih.cons_cons p

/-- Inserting a fresh node with empty adjacency preserves the invariant
(the `add_node` shape, also the new-id branch of a merge import). -/
theorem WFN_aset_fresh (ns : List (String × NodeData)) (newId : String)
    (value : Attrs) (hW : WFN ns) (hfresh : aget ns newId = none) :
    WFN (aset ns newId ⟨value, []⟩) := by
  obtain ⟨⟨hkeys, hrec⟩, hsym, hcl⟩ := hW
  have hchar : ∀ a b, edgeOfN (aset ns newId ⟨value, []⟩) a b =
      if newId = a then none else edgeOfN ns a b := by
    intro a b
    unfold edgeOfN
    rw [aget_aset_char]
    by_cases h : newId = a
    · rw [if_pos h, if_pos h]
      rfl
    · rw [if_neg h, if_neg h]
  refine ⟨⟨dkeys_aset_nodup ns newId _ hkeys, ?_⟩, ?_, ?_⟩
  · intro p hp
    rcases mem_aset ns newId _ p hp with h' | h'
    · exact hrec p h'
    · rw [h']
      simp [dkeys]
  · intro a b
    rw [hchar, hchar]
    by_cases ha : newId = a
    · rw [if_pos ha]
      by_cases hb : newId = b
      · rw [if_pos hb]
      · rw [if_neg hb]
        cases hba : edgeOfN ns b a with
        | none => rfl
        | some q =>
          have := hcl b a (by rw [hba]; rfl)
          rw [← ha, hfresh] at this
          exact absurd this (by simp)
    · rw [if_neg ha]
      by_cases hb : newId = b
      · rw [if_pos hb]
        cases hab : edgeOfN ns a b with
        | none => rfl
        | some q =>
          have := hcl a b (by rw [hab]; rfl)
          rw [← hb, hfresh] at this
          exact absurd this (by simp)
      · rw [if_neg hb]
        exact hsym a b
  · intro a b h
    rw [hchar] at h
    rw [aget_aset_char]
    by_cases hb : newId = b
    · rw [if_pos hb]
      rfl
    · rw [if_neg hb]
      by_cases ha : newId = a
      · rw [if_pos ha] at h
        exact absurd h (by simp)
      · rw [if_neg ha] at h
        exact hcl a b h

/-- Rewriting only the `value` of an existing record preserves the
invariant (the `update_node` shape, also the existing-id branch of a merge
import). -/
theorem WFN_set_value (ns : List (String × NodeData)) (key : String)
    (nd : NodeData) (merged : Attrs) (hW : WFN ns)
    (hget : aget ns key = some nd) :
    WFN (aset ns key ({ nd with value := merged })) := by
  obtain ⟨⟨hkeys, hrec⟩, hsym, hcl⟩ := hW
  have hchar : ∀ a b, edgeOfN (aset ns key ({ nd with value := merged })) a b =
      edgeOfN ns a b := by
    intro a b
    unfold edgeOfN
    rw [aget_aset_char]
    by_cases h : key = a
    · rw [if_pos h, ← h, hget]
      rfl
    · rw [if_neg h]
  have hpres : ∀ b, (aget (aset ns key ({ nd with value := merged })) b).isSome =
      (aget ns b).isSome := by
    intro b
    rw [aget_aset_char]
    by_cases h : key = b
    · rw [if_pos h, ← h, hget]
      rfl
    · rw [if_neg h]
  refine ⟨⟨dkeys_aset_nodup ns key _ hkeys, ?_⟩, ?_, ?_⟩
  · intro p hp
    rcases mem_aset ns key _ p hp with h' | h'
    · exact hrec p h'
    · rw [h']
      exact hrec (key, nd) (aget_mem ns key nd hget)
  · intro a b
    rw [hchar, hchar]
    exact hsym a b
  · intro a b h
    rw [hchar] at h
    rw [hpres]
    exact hcl a b h

/-- The symmetric double write of `add_edge` (and of each step of a merge
import's edge phase): the record at `id → tgt` and `tgt → id` becomes
`props`, nothing else moves. -/
theorem edgeOfN_setEdgeSym (ns : List (String × NodeData)) (id tgt : String)
    (props : EdgeProps) (hid : (aget ns id).isSome = true)
    (htgt : (aget ns tgt).isSome = true) :
    ∀ a b, edgeOfN
      (modifyNode (modifyNode ns id (fun nd => { nd with edges := aset nd.edges tgt props }))
        tgt (fun nd => { nd with edges := aset nd.edges id props })) a b =
      if (tgt = a ∧ id = b) ∨ (id = a ∧ tgt = b) then some props
      else edgeOfN ns a b := by
  intro a b
  obtain ⟨ndi, hndi⟩ := Option.isSome_iff_exists.mp hid
  obtain ⟨ndt, hndt⟩ := Option.isSome_iff_exists.mp htgt
  by_cases hit : id = tgt
  · subst hit
    have hEq : ndt = ndi := by
      rw [hndi] at hndt
      exact ((Option.some.injEq _ _).mp hndt).symm
    subst hEq
    rcases eq_or_ne id a with rfl | hai
    · rcases eq_or_ne id b with rfl | hbi
      · simp [edgeOfN, aget_modifyNode_char, aget_aset_char, hndi]
      · simp [edgeOfN, aget_modifyNode_char, aget_aset_char, hndi, hbi]
    · have hai' : ¬ a = id := fun h => hai h.symm
      simp [edgeOfN, aget_modifyNode_char, aget_aset_char, hndi, hai', hai]
  · have hti : ¬ tgt = id := fun h => hit h.symm
    rcases eq_or_ne tgt a with rfl | hat
    · rcases eq_or_ne id b with rfl | hbi
      · simp [edgeOfN, aget_modifyNode_char, aget_aset_char, hndi, hndt, hit, hti]
      · simp [edgeOfN, aget_modifyNode_char, aget_aset_char, hndi, hndt, hit, hti, hbi]
    · rcases eq_or_ne id a with rfl | hai
      · rcases eq_or_ne tgt b with rfl | hbt
        · simp [edgeOfN, aget_modifyNode_char, aget_aset_char, hndi, hndt, hit, hti, hat]
        · simp [edgeOfN, aget_modifyNode_char, aget_aset_char, hndi, hndt, hit, hti,
            hat, hbt]
      · simp [edgeOfN, aget_modifyNode_char, hat, hai]

/-- The symmetric double write preserves the whole invariant. -/
theorem WFN_setEdgeSym (ns : List (String × NodeData)) (id tgt : String)
    (props : EdgeProps) (hW : WFN ns) (hid : (aget ns id).isSome = true)
    (htgt : (aget ns tgt).isSome = true) :
    WFN (modifyNode (modifyNode ns id (fun nd => { nd with edges := aset nd.edges tgt props }))
      tgt (fun nd => { nd with edges := aset nd.edges id props })) := by
  obtain ⟨⟨hkeys, hrec⟩, hsym, hcl⟩ := hW
  have hchar := edgeOfN_setEdgeSym ns id tgt props hid htgt
  have hpres : ∀ b, (aget (modifyNode (modifyNode ns id
      (fun nd => { nd with edges := aset nd.edges tgt props }))
      tgt (fun nd => { nd with edges := aset nd.edges id props })) b).isSome =
      (aget ns b).isSome := by
    intro b
    rw [aget_modifyNode_isSome, aget_modifyNode_isSome]
  refine ⟨⟨dkeys_modifyNode_nodup _ _ _ (dkeys_modifyNode_nodup _ _ _ hkeys), ?_⟩, ?_, ?_⟩
  · intro p hp
    rcases mem_modifyNode _ _ _ p hp with hp1 | ⟨nd, _, hpnd⟩
    · rcases mem_modifyNode _ _ _ p hp1 with hp2 | ⟨nd, hnd, hpnd⟩
      · exact hrec p hp2
      · rw [hpnd]
        exact dkeys_aset_nodup _ _ _ (hrec (id, nd) (aget_mem ns id nd hnd))
    · rw [hpnd]
      dsimp only
      apply dkeys_aset_nodup
      rw [aget_modifyNode_char] at *
      rename_i hnd
      by_cases hh : id = tgt
      · rw [if_pos hh] at hnd
        obtain ⟨nd0, hnd0⟩ := Option.isSome_iff_exists.mp hid
        rw [hnd0] at hnd
        simp only [Option.map_some', Option.some.injEq] at hnd
        rw [← hnd]
        exact dkeys_aset_nodup _ _ _ (hrec (id, nd0) (aget_mem ns id nd0 hnd0))
      · rw [if_neg hh] at hnd
        exact hrec (tgt, nd) (aget_mem ns tgt nd hnd)
  · intro a b
    rw [hchar a b, hchar b a]
    by_cases hc : (tgt = a ∧ id = b) ∨ (id = a ∧ tgt = b)
    · rw [if_pos hc, if_pos (by tauto)]
    · rw [if_neg hc, if_neg (by tauto)]
      exact hsym a b
  · intro a b h
    rw [hchar a b] at h
    rw [hpres]
    by_cases hc : (tgt = a ∧ id = b) ∨ (id = a ∧ tgt = b)
    · rcases hc with ⟨_, hb⟩ | ⟨_, hb⟩
      · rw [← hb]
        exact hid
      · rw [← hb]
        exact htgt
    · rw [if_neg hc] at h
      exact hcl a b h

/-- `modifyNode` at a present key is a plain write of the rewritten record. -/
theorem modifyNode_eq_aset (ns : List (String × NodeData)) (k : String)
    (f : NodeData → NodeData) (nd : NodeData) (h : aget ns k = some nd) :
    modifyNode ns k f = aset ns k (f nd) := by
  unfold modifyNode
  rw [h]

/-- The symmetric double erase of `delete_edge`: the entries `k1 → k2` and
`k2 → k1` disappear, nothing else moves.  Key uniqueness of the adjacency
maps is needed to know an erase really clears the key. -/
theorem edgeOfN_delEdgeSym (ns : List (String × NodeData)) (k1 k2 : String)
    (nd1 nd2 : NodeData)
    (hrec : ∀ p ∈ ns, (dkeys p.2.edges).Nodup)
    (hk1 : aget ns k1 = some nd1) (hk2 : aget ns k2 = some nd2) :
    ∀ a b, edgeOfN
      (modifyNode (modifyNode ns k1 (fun nd => { nd with edges := aerase nd.edges k2 }))
        k2 (fun nd => { nd with edges := aerase nd.edges k1 })) a b =
      if (k1 = a ∧ k2 = b) ∨ (k2 = a ∧ k1 = b) then none
      else edgeOfN ns a b := by
  intro a b
  have hn1 : (dkeys nd1.edges).Nodup := hrec (k1, nd1) (aget_mem ns k1 nd1 hk1)
  have hn2 : (dkeys nd2.edges).Nodup := hrec (k2, nd2) (aget_mem ns k2 nd2 hk2)
  have hA1 : ∀ x, aget (aerase nd1.edges k2) x = if k2 = x then none else aget nd1.edges x :=
    fun x => aget_aerase_char nd1.edges k2 x hn1
  have hA2 : ∀ x, aget (aerase nd2.edges k1) x = if k1 = x then none else aget nd2.edges x :=
    fun x => aget_aerase_char nd2.edges k1 x hn2
  by_cases h12 : k1 = k2
  · subst h12
    have hEq : nd2 = nd1 := by
      rw [hk1] at hk2
      exact ((Option.some.injEq _ _).mp hk2).symm
    subst hEq
    have hn1' : (dkeys (aerase nd2.edges k1)).Nodup :=
      (dkeys_aerase_sublist nd2.edges k1).nodup hn1
    have hA3 : ∀ x, aget (aerase (aerase nd2.edges k1) k1) x =
        if k1 = x then none else aget nd2.edges x := by
      intro x
      rw [aget_aerase_char _ _ _ hn1']
      by_cases hx : k1 = x
      · rw [if_pos hx, if_pos hx]
      · rw [if_neg hx, if_neg hx, hA1, if_neg hx]
    rcases eq_or_ne k1 a with rfl | hai
    · rcases eq_or_ne k1 b with rfl | hbi
      · simp [edgeOfN, aget_modifyNode_char, hk1, hA3]
      · simp [edgeOfN, aget_modifyNode_char, hk1, hA3, hbi]
    · simp [edgeOfN, aget_modifyNode_char, hai]
  · have h21 : ¬ k2 = k1 := fun h => h12 h.symm
    rcases eq_or_ne k2 a with rfl | hat
    · rcases eq_or_ne k1 b with rfl | hbi
      · simp [edgeOfN, aget_modifyNode_char, hk1, hk2, h12, h21, hA2]
      · simp [edgeOfN, aget_modifyNode_char, hk1, hk2, h12, h21, hA2, hbi]
    · rcases eq_or_ne k1 a with rfl | hai
      · rcases eq_or_ne k2 b with rfl | hbt
        · simp [edgeOfN, aget_modifyNode_char, hk1, hk2, h12, h21, hA1, hat]
        · simp [edgeOfN, aget_modifyNode_char, hk1, hk2, h12, h21, hA1, hat, hbt]
      · simp [edgeOfN, aget_modifyNode_char, hat, hai]

/-- The symmetric double erase preserves the whole invariant. -/
theorem WFN_delEdgeSym (ns : List (String × NodeData)) (k1 k2 : String)
    (nd1 nd2 : NodeData) (hW : WFN ns)
    (hk1 : aget ns k1 = some nd1) (hk2 : aget ns k2 = some nd2) :
    WFN (modifyNode (modifyNode ns k1 (fun nd => { nd with edges := aerase nd.edges k2 }))
      k2 (fun nd => { nd with edges := aerase nd.edges k1 })) := by
  obtain ⟨⟨hkeys, hrec⟩, hsym, hcl⟩ := hW
  have hchar := edgeOfN_delEdgeSym ns k1 k2 nd1 nd2 hrec hk1 hk2
  have hpres : ∀ b, (aget (modifyNode (modifyNode ns k1
      (fun nd => { nd with edges := aerase nd.edges k2 }))
      k2 (fun nd => { nd with edges := aerase nd.edges k1 })) b).isSome =
      (aget ns b).isSome := by
    intro b
    rw [aget_modifyNode_isSome, aget_modifyNode_isSome]
  refine ⟨⟨dkeys_modifyNode_nodup _ _ _ (dkeys_modifyNode_nodup _ _ _ hkeys), ?_⟩, ?_, ?_⟩
  · intro p hp
    rcases mem_modifyNode _ _ _ p hp with hp1 | ⟨nd, _, hpnd⟩
    · rcases mem_modifyNode _ _ _ p hp1 with hp2 | ⟨nd, hnd, hpnd⟩
      · exact hrec p hp2
      · rw [hpnd]
        exact (dkeys_aerase_sublist _ _).nodup (hrec (k1, nd) (aget_mem ns k1 nd hnd))
    · rw [hpnd]
      dsimp only
      apply (dkeys_aerase_sublist _ _).nodup
      rename_i hnd
      rw [aget_modifyNode_char] at hnd
      by_cases hh : k1 = k2
      · rw [if_pos hh, hk1] at hnd
        simp only [Option.map_some', Option.some.injEq] at hnd
        rw [← hnd]
        exact (dkeys_aerase_sublist _ _).nodup (hrec (k1, nd1) (aget_mem ns k1 nd1 hk1))
      · rw [if_neg hh] at hnd
        exact hrec (k2, nd) (aget_mem ns k2 nd hnd)
  · intro a b
    rw [hchar a b, hchar b a]
    by_cases hc : (k1 = a ∧ k2 = b) ∨ (k2 = a ∧ k1 = b)
    · rw [if_pos hc, if_pos (by tauto)]
    · rw [if_neg hc, if_neg (by tauto)]
      exact hsym a b
  · intro a b h
    rw [hchar a b] at h
    rw [hpres]
    by_cases hc : (k1 = a ∧ k2 = b) ∨ (k2 = a ∧ k1 = b)
    · rw [if_pos hc] at h
      exact absurd h (by simp)
    · rw [if_neg hc] at h
      exact hcl a b h

/-- Inversion of one sweep step. -/
theorem delSweepStep_ok {key : String} {ns ns1 : List (String × NodeData)}
    {tgt : String} (h : delSweepStep key ns tgt = .ok ns1) :
    ∃ nd, aget ns tgt = some nd ∧
      ns1 = aset ns tgt ({ nd with edges := aerase nd.edges key }) := by
  unfold delSweepStep at h
  cases hk : aget ns tgt with
  | none => rw [hk] at h; exact Except.noConfusion h
  | some nd =>
    rw [hk] at h
    dsimp only at h
    by_cases hkey : hasKey nd.edges key = true
    · rw [if_pos hkey] at h
      cases h
      exact ⟨nd, rfl, rfl⟩
    · rw [if_neg hkey] at h
      exact Except.noConfusion h

/-- The sweep rewrites exactly the records of the visited targets, erasing
`key` from their adjacency. -/
theorem delSweep_char (key : String) :
    ∀ (T : List String) (ns ns' : List (String × NodeData)), T.Nodup →
      T.foldlM (delSweepStep key) ns = .ok ns' →
      ∀ a, aget ns' a =
        if a ∈ T
        then (aget ns a).map (fun nd => { nd with edges := aerase nd.edges key })
        else aget ns a := by
  intro T
  induction T with
  | nil =>
    intro ns ns' _ h a
    simp only [List.foldlM_nil, Except.pure, pure] at h
    cases h
    simp
  | cons t T' ih =>
    intro ns ns' hnd h a
    rw [List.foldlM_cons] at h
    cases hstep : delSweepStep key ns t with
    | error e =>
      rw [hstep] at h
      exact Except.noConfusion h
    | ok ns1 =>
      rw [hstep] at h
      simp only [List.nodup_cons] at hnd
      obtain ⟨nd, hget, hns1⟩ := delSweepStep_ok hstep
      have hrec := ih ns1 ns' hnd.2 h
      by_cases hta : a = t
      · subst hta
        rw [hrec a, if_neg hnd.1, hns1, aget_aset_self,
          if_pos (List.mem_cons_self _ _), hget]
        rfl
      · rw [hrec a]
        by_cases hmem : a ∈ T'
        · rw [if_pos hmem, if_pos (List.mem_cons_of_mem _ hmem), hns1,
            aget_aset_ne _ _ _ _ (fun hh => hta hh.symm)]
        · rw [if_neg hmem, if_neg (by
            intro hh
            rcases List.mem_cons.mp hh with hh | hh
            · exact hta hh
            · exact hmem hh), hns1,
            aget_aset_ne _ _ _ _ (fun hh => hta hh.symm)]

/-- The sweep keeps node keys unique. -/
theorem delSweep_nodup (key : String) :
    ∀ (T : List String) (ns ns' : List (String × NodeData)),
      (dkeys ns).Nodup → T.foldlM (delSweepStep key) ns = .ok ns' →
      (dkeys ns').Nodup := by
  intro T
  induction T with
  | nil =>
    intro ns ns' hnd h
    simp only [List.foldlM_nil, Except.pure, pure] at h
    cases h
    exact hnd
  | cons t T' ih =>
    intro ns ns' hnd h
    rw [List.foldlM_cons] at h
    cases hstep : delSweepStep key ns t with
    | error e => rw [hstep] at h; exact Except.noConfusion h
    | ok ns1 =>
      rw [hstep] at h
      obtain ⟨nd, _, hns1⟩ := delSweepStep_ok hstep
      exact ih ns1 ns' (hns1 ▸ dkeys_aset_nodup ns t _ hnd) h

/-- `delete_node`'s node-map effect preserves the invariant: after erasing
`key` from every neighboring record and dropping the node, the adjacency
is again symmetric, closed and key-unique. -/
theorem WFN_deleteNode (ns : List (String × NodeData)) (key : String)
    (ndk : NodeData) (ns' : List (String × NodeData)) (hW : WFN ns)
    (hk : aget ns key = some ndk)
    (hfold : (dkeys ndk.edges).foldlM (delSweepStep key) ns = .ok ns') :
    WFN (aerase ns' key) := by
  obtain ⟨⟨hkeys, hrec⟩, hsym, hcl⟩ := hW
  have hT : (dkeys ndk.edges).Nodup := hrec (key, ndk) (aget_mem ns key ndk hk)
  have hchar := delSweep_char key (dkeys ndk.edges) ns ns' hT hfold
  have hns' : (dkeys ns').Nodup := delSweep_nodup key (dkeys ndk.edges) ns ns' hkeys hfold
  have hfinal : ∀ a b, edgeOfN (aerase ns' key) a b =
      if a = key ∨ b = key then none else edgeOfN ns a b := by
    intro a b
    unfold edgeOfN
    rw [aget_aerase_char ns' key a hns']
    by_cases ha : a = key
    · rw [if_pos ha.symm, if_pos (Or.inl ha)]
      rfl
    · rw [if_neg (fun hh => ha hh.symm), hchar a]
      by_cases hmem : a ∈ dkeys ndk.edges
      · rw [if_pos hmem]
        cases hget : aget ns a with
        | none => simp
        | some nda =>
          have hnda : (dkeys nda.edges).Nodup := hrec (a, nda) (aget_mem ns a nda hget)
          simp only [Option.map_some', Option.some_bind]
          rw [aget_aerase_char nda.edges key b hnda]
          by_cases hb : key = b
          · rw [if_pos hb, if_pos (Or.inr hb.symm)]
          · rw [if_neg hb, if_neg (by
              rintro (h | h)
              · exact ha h
              · exact hb h.symm)]
      · rw [if_neg hmem]
        by_cases hb : b = key
        · rw [if_pos (Or.inr hb), hb]
          have hnone : edgeOfN ns a key = none := by
            rw [hsym a key]
            unfold edgeOfN
            rw [hk]
            simp only [Option.some_bind]
            exact aget_eq_none_of_not_mem ndk.edges a hmem
          unfold edgeOfN at hnone
          exact hnone
        · rw [if_neg (by
            rintro (h | h)
            · exact ha h
            · exact hb h)]
  refine ⟨⟨(dkeys_aerase_sublist ns' key).nodup hns', ?_⟩, ?_, ?_⟩
  · intro p hp
    have hp' : p ∈ ns' := (aerase_sublist ns' key).subset hp
    have hpget : aget ns' p.1 = some p.2 := by
      cases p
      exact aget_of_mem_nodup ns' _ _ hns' hp'
    rw [hchar p.1] at hpget
    by_cases hmem : p.1 ∈ dkeys ndk.edges
    · rw [if_pos hmem] at hpget
      cases hget : aget ns p.1 with
      | none =>
        rw [hget] at hpget
        exact absurd hpget (by simp)
      | some nd =>
        rw [hget] at hpget
        simp only [Option.map_some', Option.some.injEq] at hpget
        rw [← hpget]
        exact (dkeys_aerase_sublist _ _).nodup (hrec (p.1, nd) (aget_mem _ _ _ hget))
    · rw [if_neg hmem] at hpget
      have : (p.1, p.2) ∈ ns := aget_mem _ _ _ hpget
      cases p
      exact hrec _ this
  · intro a b
    rw [hfinal a b, hfinal b a]
    by_cases hc : a = key ∨ b = key
    · rw [if_pos hc, if_pos (by tauto)]
    · rw [if_neg hc, if_neg (by tauto)]
      exact hsym a b
  · intro a b h
    rw [hfinal a b] at h
    by_cases hc : a = key ∨ b = key
    · rw [if_pos hc] at h
      exact absurd h (by simp)
    · rw [if_neg hc] at h
      have hbsome := hcl a b h
      have hbk : ¬ b = key := fun hh => hc (Or.inr hh)
      rw [aget_aerase_char ns' key b hns', if_neg (fun hh => hbk hh.symm), hchar b]
      by_cases hmem : b ∈ dkeys ndk.edges
      · rw [if_pos hmem]
        cases hget : aget ns b with
        | none =>
          rw [hget] at hbsome
          exact absurd hbsome (by simp)
        | some nd => rfl
      · rw [if_neg hmem]
        exact hbsome

/-- Merge phase 1 preserves the invariant, puts every imported id into the
node map, and keeps every existing node present. -/
theorem mergeNodesPhase_ok :
    ∀ (ins : List (String × ImportNode)) (ns : List (String × NodeData)), WFN ns →
      WFN (mergeNodesPhase ns ins) ∧
      (∀ p ∈ ins, (aget (mergeNodesPhase ns ins) p.1).isSome = true) ∧
      (∀ a, (aget ns a).isSome = true → (aget (mergeNodesPhase ns ins) a).isSome = true) := by
  intro ins
  induction ins with
  | nil =>
    intro ns hW
    exact ⟨hW, by simp, fun a h => h⟩
  | cons p rest ih =>
    intro ns hW
    have hunf : mergeNodesPhase ns (p :: rest) =
        mergeNodesPhase
          (match aget ns p.1 with
           | none => aset ns p.1 { value := p.2.value, edges := [] }
           | some nd =>
             aset ns p.1
               { nd with value := p.2.value.foldl (fun a q => aset a q.1 q.2) nd.value })
          rest := rfl
    rw [hunf]
    have hW1 : WFN (match aget ns p.1 with
        | none => aset ns p.1 { value := p.2.value, edges := [] }
        | some nd =>
          aset ns p.1
            { nd with value := p.2.value.foldl (fun a q => aset a q.1 q.2) nd.value }) := by
      cases hp : aget ns p.1 with
      | none => exact WFN_aset_fresh ns p.1 p.2.value hW hp
      | some nd => exact WFN_set_value ns p.1 nd _ hW hp
    have hpres1 : ∀ a, (aget ns a).isSome = true →
        (aget (match aget ns p.1 with
          | none => aset ns p.1 { value := p.2.value, edges := [] }
          | some nd =>
            aset ns p.1
              { nd with value := p.2.value.foldl (fun a q => aset a q.1 q.2) nd.value }) a).isSome = true := by
      intro a ha
      cases hp : aget ns p.1 with
      | none =>
        rw [aget_aset_char]
        by_cases h : p.1 = a
        · rw [if_pos h]; rfl
        · rw [if_neg h]; exact ha
      | some nd =>
        rw [aget_aset_char]
        by_cases h : p.1 = a
        · rw [if_pos h]; rfl
        · rw [if_neg h]; exact ha
    have hself : (aget (match aget ns p.1 with
        | none => aset ns p.1 { value := p.2.value, edges := [] }
        | some nd =>
          aset ns p.1
            { nd with value := p.2.value.foldl (fun a q => aset a q.1 q.2) nd.value }) p.1).isSome = true := by
      cases hp : aget ns p.1 with
      | none => rw [aget_aset_self]; rfl
      | some nd => rw [aget_aset_self]; rfl
    obtain ⟨ihW, ihIns, ihMono⟩ := ih _ hW1
    refine ⟨ihW, ?_, fun a ha => ihMono a (hpres1 a ha)⟩
    intro q hq
    rcases List.mem_cons.mp hq with hq' | hq'
    · rw [hq']
      exact ihMono p.1 hself
    · exact ihIns q hq'

/-- One merge-phase-2 step keeps presence unchanged and the invariant
intact, given the importing id is present. -/
theorem mergeEdgeStep_ok (id : String) (ns2 : List (String × NodeData))
    (e : String × EdgeProps) (hW : WFN ns2) (hid : (aget ns2 id).isSome = true) :
    WFN (mergeEdgeStep id ns2 e) ∧
      (∀ a, (aget (mergeEdgeStep id ns2 e) a).isSome = (aget ns2 a).isSome) := by
  unfold mergeEdgeStep
  by_cases hk : hasKey ns2 e.1 = true
  · rw [if_pos hk]
    refine ⟨WFN_setEdgeSym ns2 id e.1 e.2 hW hid hk, ?_⟩
    intro a
    rw [aget_modifyNode_isSome, aget_modifyNode_isSome]
  · rw [if_neg hk]
    exact ⟨hW, fun a => rfl⟩

/-- The inner fold of merge phase 2 over one imported record's adjacency. -/
theorem mergeEdgesInner_ok (id : String) :
    ∀ (es : List (String × EdgeProps)) (ns : List (String × NodeData)),
      WFN ns → (aget ns id).isSome = true →
      WFN (es.foldl (mergeEdgeStep id) ns) ∧
        (∀ a, (aget (es.foldl (mergeEdgeStep id) ns) a).isSome = (aget ns a).isSome) := by
  intro es
  induction es with
  | nil => intro ns hW _; exact ⟨hW, fun a => rfl⟩
  | cons e rest ih =>
    intro ns hW hid
    have hstep := mergeEdgeStep_ok id ns e hW hid
    have hid1 : (aget (mergeEdgeStep id ns e) id).isSome = true := by
      rw [hstep.2 id]; exact hid
    obtain ⟨ihW, ihPres⟩ := ih (mergeEdgeStep id ns e) hstep.1 hid1
    refine ⟨ihW, fun a => ?_⟩
    rw [List.foldl_cons] at *
    rw [ihPres a, hstep.2 a]

/-- Merge phase 2 preserves the invariant when every imported id exists. -/
theorem mergeEdgesPhase_ok :
    ∀ (ins : List (String × ImportNode)) (ns : List (String × NodeData)),
      WFN ns → (∀ p ∈ ins, (aget ns p.1).isSome = true) →
      WFN (mergeEdgesPhase ns ins) := by
  intro ins
  induction ins with
  | nil => intro ns hW _; exact hW
  | cons p rest ih =>
    intro ns hW hpres
    have hinner := mergeEdgesInner_ok p.1 p.2.edges ns hW (hpres p (List.mem_cons_self _ _))
    have hunf : mergeEdgesPhase ns (p :: rest) =
        mergeEdgesPhase (p.2.edges.foldl (mergeEdgeStep p.1) ns) rest := rfl
    rw [hunf]
    apply ih _ hinner.1
    intro q hq
    rw [hinner.2 q.1]
    exact hpres q (List.mem_cons_of_mem _ hq)

/-- A merge-mode import preserves the adjacency invariant for arbitrary
(validated) import data. -/
theorem WFN_mergeImport (db : DB) (ins : List (String × ImportNode))
    (idxs : List (String × OneIndex)) (hW : WFN db.nodes) :
    WFN (mergeImport db ins idxs).nodes := by
  obtain ⟨h1, h2, _⟩ := mergeNodesPhase_ok ins db.nodes hW
  exact mergeEdgesPhase_ok ins (mergeNodesPhase db.nodes ins) h1 h2

/-- `add_node` with a fresh UUID preserves the adjacency invariant. -/
theorem addNode_WFN {st : GraphDatabase} {newId : String} {value : Attrs}
    {st' : GraphDatabase} (hW : WFN st.db.nodes)
    (hfresh : aget st.db.nodes newId = none)
    (h : addNode st newId value = .ok st') : WFN st'.db.nodes := by
  unfold addNode at h
  split at h
  · exact Except.noConfusion h
  · simp only [Except.ok.injEq] at h
    subst h
    dsimp only
    rw [snapIfTx_db]
    exact WFN_aset_fresh st.db.nodes newId value hW hfresh

/-- `update_node` preserves the adjacency invariant. -/
theorem updateNode_WFN {st : GraphDatabase} {key : String} {value : Attrs}
    {st' : GraphDatabase} (hW : WFN st.db.nodes)
    (h : updateNode st key value = .ok st') : WFN st'.db.nodes := by
  unfold updateNode at h
  split at h
  · exact Except.noConfusion h
  · split at h
    · exact Except.noConfusion h
    · simp only [Except.ok.injEq] at h
      subst h
      dsimp only
      rw [snapIfTx_db]
      rename_i nd heq _
      exact WFN_set_value st.db.nodes key nd _ hW heq

/-- `add_edge` preserves the adjacency invariant. -/
theorem addEdge_WFN {st : GraphDatabase} {k1 k2 : String} {label : Option String}
    {weight : Option ℚ} {st' : GraphDatabase} (hW : WFN st.db.nodes)
    (h : addEdge st k1 k2 label weight = .ok st') : WFN st'.db.nodes := by
  unfold addEdge at h
  split at h
  · exact Except.noConfusion h
  · split at h
    · exact Except.noConfusion h
    · split at h
      · exact Except.noConfusion h
      · simp only [Except.ok.injEq] at h
        subst h
        dsimp only
        rw [snapIfTx_db]
        rename_i hex _ _
        rw [not_not] at hex
        exact WFN_setEdgeSym st.db.nodes k1 k2 _ hW
          (by simpa [hasKey] using hex.1) (by simpa [hasKey] using hex.2)

/-- `delete_edge` preserves the adjacency invariant. -/
theorem deleteEdge_WFN {st : GraphDatabase} {k1 k2 : String}
    {st' : GraphDatabase} (hW : WFN st.db.nodes)
    (h : deleteEdge st k1 k2 = .ok st') : WFN st'.db.nodes := by
  unfold deleteEdge at h
  split at h
  · exact Except.noConfusion h
  · split at h
    · exact Except.noConfusion h
    · rename_i hc1 hc2
      have hc2' : ((aget st.db.nodes k1).elim false fun nd => hasKey nd.edges k2) = true :=
        not_not.mp hc2
      have hk1some : ∃ nd1, aget st.db.nodes k1 = some nd1 := by
        cases hg : aget st.db.nodes k1 with
        | none => rw [hg] at hc2'; exact absurd hc2' (by simp [Option.elim])
        | some nd1 => exact ⟨nd1, rfl⟩
      obtain ⟨nd1, hnd1⟩ := hk1some
      dsimp only at h
      rw [snapIfTx_db] at h
      split at h
      · exact Except.noConfusion h
      · rename_i nd2 heq2
        split at h
        · rename_i hrev
          simp only [Except.ok.injEq] at h
          subst h
          dsimp only
          by_cases h12 : k1 = k2
          · exfalso
            subst h12
            rw [aget_modifyNode_char, if_pos rfl, hnd1] at heq2
            simp only [Option.map_some', Option.some.injEq] at heq2
            rw [← heq2] at hrev
            have hnone : aget (aerase nd1.edges k1) k1 = none :=
              aget_aerase_self nd1.edges k1
                (hW.1.2 (k1, nd1) (aget_mem st.db.nodes k1 nd1 hnd1))
            rw [hasKey, hnone] at hrev
            exact absurd hrev (by simp)
          · have heq2' : aget st.db.nodes k2 = some nd2 := by
              rw [aget_modifyNode_char, if_neg h12] at heq2
              exact heq2
            rw [← modifyNode_eq_aset _ k2
              (fun nd => { nd with edges := aerase nd.edges k1 }) nd2 heq2]
            exact WFN_delEdgeSym st.db.nodes k1 k2 nd1 nd2 hW hnd1 heq2'
        · exact Except.noConfusion h

/-- `delete_node` preserves the adjacency invariant. -/
theorem deleteNode_WFN {st : GraphDatabase} {key : String}
    {st' : GraphDatabase} (hW : WFN st.db.nodes)
    (h : deleteNode st key = .ok st') : WFN st'.db.nodes := by
  unfold deleteNode at h
  split at h
  · exact Except.noConfusion h
  · rename_i ndk heq
    dsimp only at h
    rw [snapIfTx_db] at h
    split at h
    · exact Except.noConfusion h
    · rename_i nodes1 heq2
      simp only [Except.ok.injEq] at h
      subst h
      dsimp only
      exact WFN_deleteNode st.db.nodes key ndk nodes1 hW heq heq2

/-! ## Claim C4 -/

/-- Claim C4 (confirmed): starting from a well-formed state, every public
mutating operation that succeeds — `add_node` (with its fresh UUID),
`update_node`, `delete_node`, `add_edge`, `delete_edge`, the index DDL,
the transaction commands and a merge-mode import — leaves the adjacency
symmetric with equal property records on the two sides (and keeps every
snapshot on the transaction stack well-formed, so rollback re-installs a
symmetric state). -/
theorem adjacency_symmetry_preserved :
    ∀ (st : GraphDatabase) (op : DbOp) (st' : GraphDatabase),
      WFst st → opFresh st op = true → applyOp st op = .ok st' →
      WFst st' ∧ ∀ a b, edgeOfN st'.db.nodes a b = edgeOfN st'.db.nodes b a := by
  intro st op st' hWst hfresh h
  have hsnap : ∀ d ∈ (snapIfTx st).history, WFN d.nodes := by
    intro d hd
    unfold snapIfTx at hd
    split at hd
    · rcases List.mem_cons.mp hd with hd' | hd'
      · rw [hd']
        exact hWst.1
      · exact hWst.2 d hd'
    · exact hWst.2 d hd
  have main : WFst st' := by
    cases op with
    | opAddNode newId value =>
      have hfr : aget st.db.nodes newId = none := by
        simp only [opFresh, hasKey] at hfresh
        cases hg : aget st.db.nodes newId with
        | none => rfl
        | some v => simp [hg] at hfresh
      refine ⟨addNode_WFN hWst.1 hfr h, ?_⟩
      rw [(addNode_ok_fields h).2]
      exact hsnap
    | opUpdateNode key value =>
      refine ⟨updateNode_WFN hWst.1 h, ?_⟩
      rw [(updateNode_ok_fields h).2]
      exact hsnap
    | opDeleteNode key =>
      refine ⟨deleteNode_WFN hWst.1 h, ?_⟩
      rw [(deleteNode_ok_fields h).2]
      exact hsnap
    | opAddEdge k1 k2 label weight =>
      refine ⟨addEdge_WFN hWst.1 h, ?_⟩
      rw [(addEdge_ok_fields h).2]
      exact hsnap
    | opDeleteEdge k1 k2 =>
      refine ⟨deleteEdge_WFN hWst.1 h, ?_⟩
      rw [(deleteEdge_ok_fields h).2]
      exact hsnap
    | opCreateIndex a =>
      obtain ⟨_, hhist, hnodes⟩ := createIndex_ok_fields h
      refine ⟨?_, ?_⟩
      · rw [hnodes]
        exact hWst.1
      · rw [hhist]
        exact hWst.2
    | opDropIndex a =>
      obtain ⟨_, hhist, hnodes⟩ := dropIndex_ok_fields h
      refine ⟨?_, ?_⟩
      · rw [hnodes]
        exact hWst.1
      · rw [hhist]
        exact hWst.2
    | opBegin =>
      simp only [applyOp] at h
      unfold beginTransaction at h
      cases htx : st.transaction with
      | some b => rw [htx] at h; exact Except.noConfusion h
      | none =>
        rw [htx] at h
        cases h
        exact ⟨hWst.1, by simp⟩
    | opCommit =>
      simp only [applyOp] at h
      unfold commitTransaction at h
      split at h
      · cases h
        exact ⟨hWst.1, fun d hd => hWst.2 d (List.mem_of_mem_tail hd)⟩
      · exact Except.noConfusion h
    | opRollback =>
      simp only [applyOp] at h
      unfold rollbackTransaction at h
      split at h
      · cases hh : st.history with
        | nil =>
          rw [hh] at h
          cases h
          exact hWst
        | cons d rest =>
          rw [hh] at h
          cases h
          refine ⟨hWst.2 d (hh ▸ List.mem_cons_self _ _), ?_⟩
          intro d' hd'
          exact hWst.2 d' (hh ▸ List.mem_cons_of_mem _ hd')
      · exact Except.noConfusion h
    | opStop =>
      simp only [applyOp] at h
      unfold stopTransaction at h
      split at h
      · cases h
        exact ⟨hWst.1, by simp⟩
      · exact Except.noConfusion h
    | opMergeImport ins idxs =>
      simp only [applyOp, Except.ok.injEq] at h
      subst h
      exact ⟨WFN_mergeImport st.db ins idxs hWst.1, hWst.2⟩
  exact ⟨main, main.1.2.1⟩

/-- Two disconnected nodes, no transaction: the witness start state. -/
def exSymSt : GraphDatabase :=
  ⟨⟨[("a", ⟨[("x", .vInt 1)], []⟩), ("b", ⟨[("x", .vInt 2)], []⟩)], []⟩, none, []⟩

/-- The state after `add_edge("a", "b", label="knows", weight=3)`. -/
def exSymSt' : GraphDatabase :=
  ⟨⟨[("a", ⟨[("x", .vInt 1)], [("b", ⟨some "knows", some 3⟩)]⟩),
     ("b", ⟨[("x", .vInt 2)], [("a", ⟨some "knows", some 3⟩)]⟩)], []⟩, none, []⟩

/-- Claim C4, witness: adding an edge to a concrete two-node database
yields a state whose two adjacency records for the new edge agree. -/
theorem adjacency_symmetry_witness :
    edgeOfN exSymSt'.db.nodes "a" "b" = edgeOfN exSymSt'.db.nodes "b" "a" :=
  (adjacency_symmetry_preserved exSymSt
    (.opAddEdge "a" "b" (some "knows") (some 3)) exSymSt'
    ⟨wfNCheck_sound _ (by decide), by simp [exSymSt]⟩ (by decide) (by rfl)).2 "a" "b"

/-! ## Claim C3: the indexed plan against the full scan -/

/-- On an all-`=`/`IN` group the candidate re-evaluation loop computes
exactly what the scan loop computes: their `=`/`IN` branches are the same
code. -/
theorem candEval_eq_scanEval (castNS cs : Bool) (attrs : Attrs) :
    ∀ conds : List Cond, (∀ c ∈ conds, isEqIn c.tst = true) →
      candEvalConds castNS cs attrs conds = scanEvalConds castNS cs attrs conds := by
  intro conds
  induction conds with
  | nil => intro _; rfl
  | cons c rest ih =>
    intro hall
    have hc : isEqIn c.tst = true := hall c (List.mem_cons_self _ _)
    have hrest := ih (fun c' hc' => hall c' (List.mem_cons_of_mem _ hc'))
    simp only [candEvalConds, scanEvalConds]
    cases aget attrs c.key with
    | none => rfl
    | some v =>
      dsimp only
      rw [if_pos hc]
      cases evalScalar castNS cs v c.tst with
      | error e => rfl
      | ok b =>
        cases b
        · rfl
        · simpa using hrest

/-- A completed plan loop saw only `=`/`IN` conditions. -/
theorem planAux_all_eqIn (db : DB) (cs : Bool) :
    ∀ (conds : List Cond) (acc : Option (List String)) (r : Option (List String)),
      planAux db cs conds acc = some r → ∀ c ∈ conds, isEqIn c.tst = true := by
  intro conds
  induction conds with
  | nil => intro _ _ _ c hc; cases hc
  | cons c rest ih =>
    intro acc r h c' hc'
    unfold planAux at h
    split at h
    · exact Option.noConfusion h
    · split at h
      · exact Option.noConfusion h
      · rename_i hguard
        rw [not_not] at hguard
        rcases List.mem_cons.mp hc' with hc'' | hc''
        · rw [hc'']
          exact hguard.1
        · cases htst : c.tst with
          | qEq lit =>
            rw [htst] at h
            exact ih _ r h c' hc''
          | qIn vals =>
            rw [htst] at h
            exact ih _ r h c' hc''
          | qNe l => rw [htst] at h; exact Option.noConfusion h
          | qGt l => rw [htst] at h; exact Option.noConfusion h
          | qLt l => rw [htst] at h; exact Option.noConfusion h
          | qGe l => rw [htst] at h; exact Option.noConfusion h
          | qLe l => rw [htst] at h; exact Option.noConfusion h
          | qContains l => rw [htst] at h; exact Option.noConfusion h

/-- A chosen indexed plan implies every condition is `=`/`IN`. -/
theorem planGroup_all_eqIn (db : DB) (cs : Bool) (conds : List Cond)
    (cands : List String) (h : planGroup db cs conds = some cands) :
    ∀ c ∈ conds, isEqIn c.tst = true := by
  unfold planGroup at h
  cases hp : planAux db cs conds none with
  | none => rw [hp] at h; exact Option.noConfusion h
  | some r => exact planAux_all_eqIn db cs conds none r hp

/-- With no indexes every group is planned as a full scan. -/
theorem planGroup_stripIndexes (db : DB) (cs : Bool) (conds : List Cond) :
    planGroup (stripIndexes db) cs conds = none := by
  unfold planGroup
  cases conds with
  | nil => rfl
  | cons c rest =>
    have : planAux (stripIndexes db) cs (c :: rest) none = none := by
      unfold planAux
      split
      · rfl
      · rw [if_pos (by
          intro hand
          have := hand.2
          simp [stripIndexes, hasKey, aget] at this)]
    rw [this]

/-- The `seen_ids`/result invariant: every remembered id has a result row. -/
def SRInv (seen : List String) (res : List (String × Attrs)) : Prop :=
  ∀ i, i ∈ seen → ∃ a, (i, a) ∈ res

/-- The candidate path only appends to the result list. -/
theorem candRun_mono (db : DB) (castNS cs : Bool) (conds : List Cond) :
    ∀ (cands seen : List String) (res : List (String × Attrs)) (s' : List String)
      (r' : List (String × Attrs)),
      candGroupRun db castNS cs conds cands seen res = .ok (s', r') →
      ∀ x ∈ res, x ∈ r' := by
  intro cands
  induction cands with
  | nil =>
    intro seen res s' r' h x hx
    simp only [candGroupRun, Except.ok.injEq, Prod.mk.injEq] at h
    rw [← h.2]
    exact hx
  | cons i rest ih =>
    intro seen res s' r' h x hx
    simp only [candGroupRun] at h
    split at h
    · exact ih seen res s' r' h x hx
    · split at h
      · exact Except.noConfusion h
      · split at h
        · exact Except.noConfusion h
        · split at h
          · exact ih _ _ s' r' h x (List.mem_append_left _ hx)
          · exact ih _ _ s' r' h x hx

/-- The scan path only appends to the result list. -/
theorem scanRun_mono (castNS cs : Bool) (conds : List Cond) :
    ∀ (nodes : List (String × NodeData)) (seen : List String)
      (res : List (String × Attrs)) (s' : List String) (r' : List (String × Attrs)),
      scanGroupRun castNS cs conds nodes seen res = .ok (s', r') →
      ∀ x ∈ res, x ∈ r' := by
  intro nodes
  induction nodes with
  | nil =>
    intro seen res s' r' h x hx
    simp only [scanGroupRun, Except.ok.injEq, Prod.mk.injEq] at h
    rw [← h.2]
    exact hx
  | cons p rest ih =>
    intro seen res s' r' h x hx
    simp only [scanGroupRun] at h
    split at h
    · exact ih seen res s' r' h x hx
    · split at h
      · exact Except.noConfusion h
      · split at h
        · exact ih _ _ s' r' h x (List.mem_append_left _ hx)
        · exact ih _ _ s' r' h x hx

/-- The candidate path preserves the seen/result invariant. -/
theorem candRun_srinv (db : DB) (castNS cs : Bool) (conds : List Cond) :
    ∀ (cands seen : List String) (res : List (String × Attrs)) (s' : List String)
      (r' : List (String × Attrs)),
      candGroupRun db castNS cs conds cands seen res = .ok (s', r') →
      SRInv seen res → SRInv s' r' := by
  intro cands
  induction cands with
  | nil =>
    intro seen res s' r' h hinv
    simp only [candGroupRun, Except.ok.injEq, Prod.mk.injEq] at h
    rw [← h.1, ← h.2]
    exact hinv
  | cons i rest ih =>
    intro seen res s' r' h hinv
    simp only [candGroupRun] at h
    split at h
    · exact ih seen res s' r' h hinv
    · split at h
      · exact Except.noConfusion h
      · split at h
        · exact Except.noConfusion h
        · split at h
          · rename_i nd hnd hns b heval hb
            refine ih _ _ s' r' h ?_
            intro j hj
            rcases List.mem_cons.mp hj with hj' | hj'
            · exact ⟨nd.value, List.mem_append_right _ (by rw [hj']; exact List.mem_singleton.mpr rfl)⟩
            · obtain ⟨a, ha⟩ := hinv j hj'
              exact ⟨a, List.mem_append_left _ ha⟩
          · exact ih _ _ s' r' h hinv

/-- The scan path preserves the seen/result invariant. -/
theorem scanRun_srinv (castNS cs : Bool) (conds : List Cond) :
    ∀ (nodes : List (String × NodeData)) (seen : List String)
      (res : List (String × Attrs)) (s' : List String) (r' : List (String × Attrs)),
      scanGroupRun castNS cs conds nodes seen res = .ok (s', r') →
      SRInv seen res → SRInv s' r' := by
  intro nodes
  induction nodes with
  | nil =>
    intro seen res s' r' h hinv
    simp only [scanGroupRun, Except.ok.injEq, Prod.mk.injEq] at h
    rw [← h.1, ← h.2]
    exact hinv
  | cons p rest ih =>
    intro seen res s' r' h hinv
    simp only [scanGroupRun] at h
    split at h
    · exact ih seen res s' r' h hinv
    · split at h
      · exact Except.noConfusion h
      · split at h
        · refine ih _ _ s' r' h ?_
          intro j hj
          rcases List.mem_cons.mp hj with hj' | hj'
          · exact ⟨p.2.value, List.mem_append_right _ (by rw [hj']; exact List.mem_singleton.mpr rfl)⟩
          · obtain ⟨a, ha⟩ := hinv j hj'
            exact ⟨a, List.mem_append_left _ ha⟩
        · exact ih _ _ s' r' h hinv

/-- Soundness of the candidate path: every new result row is a node that
passed the re-evaluation of the whole group. -/
theorem candRun_sound (db : DB) (castNS cs : Bool) (conds : List Cond) :
    ∀ (cands seen : List String) (res : List (String × Attrs)) (s' : List String)
      (r' : List (String × Attrs)),
      candGroupRun db castNS cs conds cands seen res = .ok (s', r') →
      ∀ x ∈ r', x ∈ res ∨
        ∃ nd, aget db.nodes x.1 = some nd ∧ nd.value = x.2 ∧
          candEvalConds castNS cs nd.value conds = .ok true := by
  intro cands
  induction cands with
  | nil =>
    intro seen res s' r' h x hx
    simp only [candGroupRun, Except.ok.injEq, Prod.mk.injEq] at h
    rw [← h.2] at hx
    exact Or.inl hx
  | cons i rest ih =>
    intro seen res s' r' h x hx
    simp only [candGroupRun] at h
    split at h
    · exact ih seen res s' r' h x hx
    · split at h
      · exact Except.noConfusion h
      · split at h
        · exact Except.noConfusion h
        · split at h
          · rename_i nd hnd hns b heval hb
            rcases ih _ _ s' r' h x hx with hx' | hx'
            · rcases List.mem_append.mp hx' with hx'' | hx''
              · exact Or.inl hx''
              · right
                have hxi : x = (i, nd.value) := List.mem_singleton.mp hx''
                refine ⟨nd, ?_, ?_, ?_⟩
                · rw [hxi]
                  exact hnd
                · rw [hxi]
                · rw [hb] at heval
                  exact heval
            · exact Or.inr hx'
          · exact ih _ _ s' r' h x hx

/-- Soundness of the scan path: every new result row is a node of the
walked list that passed the group. -/
theorem scanRun_sound (castNS cs : Bool) (conds : List Cond) :
    ∀ (nodes : List (String × NodeData)) (seen : List String)
      (res : List (String × Attrs)) (s' : List String) (r' : List (String × Attrs)),
      scanGroupRun castNS cs conds nodes seen res = .ok (s', r') →
      ∀ x ∈ r', x ∈ res ∨
        ∃ nd, (x.1, nd) ∈ nodes ∧ nd.value = x.2 ∧
          scanEvalConds castNS cs nd.value conds = .ok true := by
  intro nodes
  induction nodes with
  | nil =>
    intro seen res s' r' h x hx
    simp only [scanGroupRun, Except.ok.injEq, Prod.mk.injEq] at h
    rw [← h.2] at hx
    exact Or.inl hx
  | cons p rest ih =>
    intro seen res s' r' h x hx
    simp only [scanGroupRun] at h
    split at h
    · rcases ih seen res s' r' h x hx with hx' | hx'
      · exact Or.inl hx'
      · obtain ⟨nd, hmem, hval, hev⟩ := hx'
        exact Or.inr ⟨nd, List.mem_cons_of_mem _ hmem, hval, hev⟩
    · split at h
      · exact Except.noConfusion h
      · split at h
        · rename_i hns b heval hb
          rcases ih _ _ s' r' h x hx with hx' | hx'
          · rcases List.mem_append.mp hx' with hx'' | hx''
            · exact Or.inl hx''
            · right
              have hxp : x = (p.1, p.2.value) := List.mem_singleton.mp hx''
              refine ⟨p.2, ?_, ?_, ?_⟩
              · rw [hxp]
                exact List.mem_cons_self _ _
              · rw [hxp]
              · rw [hb] at heval
                exact heval
          · obtain ⟨nd, hmem, hval, hev⟩ := hx'
            exact Or.inr ⟨nd, List.mem_cons_of_mem _ hmem, hval, hev⟩
        · rcases ih _ _ s' r' h x hx with hx' | hx'
          · exact Or.inl hx'
          · obtain ⟨nd, hmem, hval, hev⟩ := hx'
            exact Or.inr ⟨nd, List.mem_cons_of_mem _ hmem, hval, hev⟩

/-- Completeness of the scan path: a walked node that satisfies the group
ends up in the results (possibly discovered earlier). -/
theorem scanRun_complete (castNS cs : Bool) (conds : List Cond) :
    ∀ (nodes : List (String × NodeData)) (seen : List String)
      (res : List (String × Attrs)) (s' : List String) (r' : List (String × Attrs))
      (id : String) (nd : NodeData),
      scanGroupRun castNS cs conds nodes seen res = .ok (s', r') →
      SRInv seen res → (id, nd) ∈ nodes →
      scanEvalConds castNS cs nd.value conds = .ok true →
      ∃ a, (id, a) ∈ r' := by
  intro nodes
  induction nodes with
  | nil =>
    intro seen res s' r' id nd _ _ hmem _
    cases hmem
  | cons p rest ih =>
    intro seen res s' r' id nd h hinv hmem hev
    simp only [scanGroupRun] at h
    rcases List.mem_cons.mp hmem with hmem' | hmem'
    · have hp1 : p.1 = id := by rw [← hmem']
      have hp2 : p.2 = nd := by rw [← hmem']
      split at h
      · rename_i hseen
        obtain ⟨a, ha⟩ := hinv p.1 hseen
        exact ⟨a, hp1 ▸ scanRun_mono castNS cs conds rest seen res s' r' h _ ha⟩
      · split at h
        · exact Except.noConfusion h
        · split at h
          · refine ⟨p.2.value, hp1 ▸ scanRun_mono castNS cs conds rest _ _ s' r' h _ ?_⟩
            exact List.mem_append_right _ (List.mem_singleton.mpr rfl)
          · rename_i hns b heval hb
            exfalso
            rw [hp2, hev] at heval
            have : b = true := by
              injection heval with hh
              exact hh.symm
            exact hb this
    · split at h
      · exact ih seen res s' r' id nd h hinv hmem' hev
      · split at h
        · exact Except.noConfusion h
        · split at h
          · refine ih _ _ s' r' id nd h ?_ hmem' hev
            intro j hj
            rcases List.mem_cons.mp hj with hj' | hj'
            · exact ⟨p.2.value, List.mem_append_right _ (by rw [hj']; exact List.mem_singleton.mpr rfl)⟩
            · obtain ⟨a, ha⟩ := hinv j hj'
              exact ⟨a, List.mem_append_left _ ha⟩
          · exact ih _ _ s' r' id nd h hinv hmem' hev


/-- Chaining the groups only appends to the result list. -/
theorem runGroups_mono (db : DB) (castNS cs : Bool) :
    ∀ (gs : List (List Cond)) (seen : List String) (res : List (String × Attrs))
      (s' : List String) (r' : List (String × Attrs)),
      runGroups db castNS cs gs seen res = .ok (s', r') →
      ∀ x ∈ res, x ∈ r' := by
  intro gs
  induction gs with
  | nil =>
    intro seen res s' r' h x hx
    simp only [runGroups, Except.ok.injEq, Prod.mk.injEq] at h
    rw [← h.2]
    exact hx
  | cons g rest ih =>
    intro seen res s' r' h x hx
    simp only [runGroups] at h
    cases hplan : planGroup db cs g with
    | some cands =>
      simp only [hplan] at h
      cases hrun : candGroupRun db castNS cs g cands seen res with
      | error e => simp only [hrun] at h; exact Except.noConfusion h
      | ok pr =>
        obtain ⟨s1, r1⟩ := pr
        simp only [hrun] at h
        exact ih s1 r1 s' r' h x
          (candRun_mono db castNS cs g cands seen res s1 r1 hrun x hx)
    | none =>
      simp only [hplan] at h
      cases hrun : scanGroupRun castNS cs g db.nodes seen res with
      | error e => simp only [hrun] at h; exact Except.noConfusion h
      | ok pr =>
        obtain ⟨s1, r1⟩ := pr
        simp only [hrun] at h
        exact ih s1 r1 s' r' h x
          (scanRun_mono castNS cs g db.nodes seen res s1 r1 hrun x hx)

/-- Soundness of the whole group chain: every reported row is a stored
node whose value satisfies at least one OR-group under the full-scan
semantics (candidate groups are all `=`/`IN`, where the candidate
re-evaluation coincides with the scan evaluation). -/
theorem runGroups_sound (db : DB) (castNS cs : Bool) :
    ∀ (gs : List (List Cond)) (seen : List String) (res : List (String × Attrs))
      (s' : List String) (r' : List (String × Attrs)),
      runGroups db castNS cs gs seen res = .ok (s', r') →
      ∀ x ∈ r', x ∈ res ∨
        ∃ g ∈ gs, ∃ nd, (x.1, nd) ∈ db.nodes ∧ nd.value = x.2 ∧
          scanEvalConds castNS cs nd.value g = .ok true := by
  intro gs
  induction gs with
  | nil =>
    intro seen res s' r' h x hx
    simp only [runGroups, Except.ok.injEq, Prod.mk.injEq] at h
    rw [← h.2] at hx
    exact Or.inl hx
  | cons g rest ih =>
    intro seen res s' r' h x hx
    simp only [runGroups] at h
    cases hplan : planGroup db cs g with
    | some cands =>
      simp only [hplan] at h
      cases hrun : candGroupRun db castNS cs g cands seen res with
      | error e => simp only [hrun] at h; exact Except.noConfusion h
      | ok pr =>
        obtain ⟨s1, r1⟩ := pr
        simp only [hrun] at h
        rcases ih s1 r1 s' r' h x hx with hx' | ⟨g', hg', nd, hmem, hval, hev⟩
        · rcases candRun_sound db castNS cs g cands seen res s1 r1 hrun x hx' with
            hx'' | ⟨nd, hnd, hval, hev⟩
          · exact Or.inl hx''
          · refine Or.inr ⟨g, List.mem_cons_self _ _, nd, aget_mem _ _ _ hnd, hval, ?_⟩
            rw [← candEval_eq_scanEval castNS cs nd.value g
              (planGroup_all_eqIn db cs g cands hplan)]
            exact hev
        · exact Or.inr ⟨g', List.mem_cons_of_mem _ hg', nd, hmem, hval, hev⟩
    | none =>
      simp only [hplan] at h
      cases hrun : scanGroupRun castNS cs g db.nodes seen res with
      | error e => simp only [hrun] at h; exact Except.noConfusion h
      | ok pr =>
        obtain ⟨s1, r1⟩ := pr
        simp only [hrun] at h
        rcases ih s1 r1 s' r' h x hx with hx' | ⟨g', hg', nd, hmem, hval, hev⟩
        · rcases scanRun_sound castNS cs g db.nodes seen res s1 r1 hrun x hx' with
            hx'' | ⟨nd, hmem, hval, hev⟩
          · exact Or.inl hx''
          · exact Or.inr ⟨g, List.mem_cons_self _ _, nd, hmem, hval, hev⟩
        · exact Or.inr ⟨g', List.mem_cons_of_mem _ hg', nd, hmem, hval, hev⟩

/-- Completeness of the index-free chain: on the stripped database every
group is a full scan, so a stored node that satisfies some group is
reported (under the chain's seen/result bookkeeping invariant). -/
theorem runGroups_complete (db : DB) (castNS cs : Bool) :
    ∀ (gs : List (List Cond)) (seen : List String) (res : List (String × Attrs))
      (s' : List String) (r' : List (String × Attrs)) (g : List Cond)
      (id : String) (nd : NodeData),
      runGroups (stripIndexes db) castNS cs gs seen res = .ok (s', r') →
      SRInv seen res → g ∈ gs → (id, nd) ∈ db.nodes →
      scanEvalConds castNS cs nd.value g = .ok true →
      ∃ a, (id, a) ∈ r' := by
  intro gs
  induction gs with
  | nil =>
    intro seen res s' r' g id nd _ _ hg _ _
    cases hg
  | cons g0 rest ih =>
    intro seen res s' r' g id nd h hinv hg hmem hev
    simp only [runGroups, planGroup_stripIndexes] at h
    cases hrun : scanGroupRun castNS cs g0 (stripIndexes db).nodes seen res with
    | error e => simp only [hrun] at h; exact Except.noConfusion h
    | ok pr =>
      obtain ⟨s1, r1⟩ := pr
      simp only [hrun] at h
      have hinv1 : SRInv s1 r1 :=
        scanRun_srinv castNS cs g0 (stripIndexes db).nodes seen res s1 r1 hrun hinv
      rcases List.mem_cons.mp hg with hg' | hg'
      · obtain ⟨a, ha⟩ := scanRun_complete castNS cs g0 (stripIndexes db).nodes
          seen res s1 r1 id nd hrun hinv hmem (hg' ▸ hev)
        exact ⟨a, runGroups_mono (stripIndexes db) castNS cs rest s1 r1 s' r' h _ ha⟩
      · exact ih s1 r1 s' r' g id nd h hinv1 hg' hmem hev

/-! ## Claim C3 -/

/-- Claim C3, counterexample: indexed and index-free query results are NOT
always equal.  Index entries are written under the un-lowercased
`str(value)` but a case-insensitive probe looks up the lowercased literal:
with an index on `name` and a node `{name: "Alice"}`, `WHERE name = "Alice"`
returns nothing on the indexed plan while the full scan returns the node. -/
theorem query_index_vs_scan_counterexample :
    (createIndex ⟨exAliceDb, none, []⟩ "name").map (fun st =>
      (runQuery st.db [[⟨"name", QTest.qEq "Alice"⟩]] true false,
       runQuery (stripIndexes st.db) [[⟨"name", QTest.qEq "Alice"⟩]] true false)) =
    .ok (.ok [], .ok [("n1", [("name", Value.vStr "Alice")])]) :=
  rfl

/-- Claim C3 (corrected): because every candidate produced by an index
probe is re-evaluated against every condition of its group, the indexed
plan returns only vertices that also satisfy the group under full-scan
evaluation — its result is a SUBSET of the index-free result (and no
duplicate ids arise, `seen_ids` dedups).  Exact equality, as claimed, is
false: a case-insensitive probe lowercases the literal while index keys
are stored un-lowercased, so indexed probes can miss (see the
counterexample).  Restricted to node-attribute conditions, the modelled
fragment. -/
theorem query_index_subset_of_scan (db : DB) (orConds : List (List Cond))
    (castNS cs : Bool) (P S : List (String × Attrs))
    (hek : noEdgeKeys orConds = true)
    (hP : runQuery db orConds castNS cs = .ok P)
    (hS : runQuery (stripIndexes db) orConds castNS cs = .ok S) :
    ∀ id a, (id, a) ∈ P → ∃ a', (id, a') ∈ S := by
  intro id a hmem
  simp only [runQuery] at hP hS
  cases h1 : runGroups db castNS cs orConds [] [] with
  | error e => rw [h1] at hP; exact Except.noConfusion hP
  | ok pr =>
    obtain ⟨s1, r1⟩ := pr
    simp only [h1, Except.ok.injEq] at hP
    cases h2 : runGroups (stripIndexes db) castNS cs orConds [] [] with
    | error e => rw [h2] at hS; exact Except.noConfusion hS
    | ok pr2 =>
      obtain ⟨s2, r2⟩ := pr2
      simp only [h2, Except.ok.injEq] at hS
      rcases runGroups_sound db castNS cs orConds [] [] s1 r1 h1 (id, a)
          (by rw [hP]; exact hmem) with hx | ⟨g, hg, nd, hmemN, hval, hev⟩
      · cases hx
      · have hmemN' : (id, nd) ∈ db.nodes := hmemN
        obtain ⟨a', ha'⟩ := runGroups_complete db castNS cs orConds [] [] s2 r2
          g id nd h2 (fun i hi => absurd hi (List.not_mem_nil i)) hg hmemN' hev
        exact ⟨a', hS ▸ ha'⟩

/-- The subset theorem at the specification's own scenario: index on `age`,
query `WHERE age = 30` — here the probe key `"30"` is unchanged by
lowercasing, both plans return exactly the two matching vertices, and the
subset conclusion is checked at vertex `a`. -/
theorem query_index_subset_of_scan_witness :
    noEdgeKeys [[⟨"age", QTest.qEq "30"⟩]] = true ∧
    runQuery exAgesIdxDb [[⟨"age", QTest.qEq "30"⟩]] true false =
      .ok [("a", [("name", Value.vStr "Alice"), ("age", Value.vInt 30)]),
           ("c", [("name", Value.vStr "C"), ("age", Value.vInt 30)])] ∧
    runQuery (stripIndexes exAgesIdxDb) [[⟨"age", QTest.qEq "30"⟩]] true false =
      .ok [("a", [("name", Value.vStr "Alice"), ("age", Value.vInt 30)]),
           ("c", [("name", Value.vStr "C"), ("age", Value.vInt 30)])] ∧
    ∃ a', ("a", a') ∈
      [("a", [("name", Value.vStr "Alice"), ("age", Value.vInt 30)]),
       ("c", [("name", Value.vStr "C"), ("age", Value.vInt 30)])] :=
  ⟨rfl, rfl, rfl,
    query_index_subset_of_scan exAgesIdxDb [[⟨"age", QTest.qEq "30"⟩]] true false
      _ _ (by decide) rfl rfl "a"
      [("name", Value.vStr "Alice"), ("age", Value.vInt 30)] (by simp)⟩

/-! ## Claim C6: groundwork for the BFS correctness proof -/

/-- Every queue entry carries a concrete path: it starts at `a`, ends at
the entry's own key, and its consecutive pairs are adjacent. -/
def QPath (db : DB) (a : String) (q : List (String × List String)) : Prop :=
  ∀ e ∈ q, e.2.head? = some a ∧ e.2.getLast? = some e.1 ∧
    e.2.Chain' (fun x y => adjacentB db x y = true)

/-- FIFO discipline on carried-path lengths: non-decreasing along the
queue, and any two entries differ by at most one. -/
def QMono (q : List (String × List String)) : Prop :=
  (q.map (fun e => e.2.length)).Pairwise (· ≤ ·) ∧
    ∀ e ∈ q, ∀ f ∈ q, e.2.length ≤ f.2.length + 1

/-- The visited set is closed up to the queue: each neighbor of a visited
node is visited or queued. -/
def VClosed (db : DB) (q : List (String × List String)) (v : List String) : Prop :=
  ∀ x ∈ v, ∀ y, adjacentB db x y = true → y ∈ v ∨ ∃ e ∈ q, e.1 = y

/-- The fixed target path `w` is tracked by the search state: some vertex
`w[i]` sits in the queue with a carried path no longer than `i + 1`, and
no vertex of `w` at or beyond position `i` has been visited. -/
def WTrack (w : List String) (q : List (String × List String))
    (v : List String) : Prop :=
  ∃ i x, w[i]? = some x ∧ (∃ pe, (x, pe) ∈ q ∧ pe.length ≤ i + 1) ∧
    ∀ j y, i ≤ j → w[j]? = some y → ¬ y ∈ v

/-- A constant list is `≤`-pairwise. -/
theorem pairwise_le_of_const (l : List Nat) (k : Nat) (h : ∀ x ∈ l, x = k) :
    l.Pairwise (· ≤ ·) := by
  induction l with
  | nil => exact List.Pairwise.nil
  | cons a t ih =>
    refine List.pairwise_cons.mpr ⟨?_, ih (fun x hx => h x (List.mem_cons_of_mem _ hx))⟩
    intro b hb
    rw [h a (List.mem_cons_self _ _), h b (List.mem_cons_of_mem _ hb)]

/-- Under `QMono` the head's carried path is shortest. -/
theorem qmono_head_le (hd : String × List String) (tl : List (String × List String))
    (hm : QMono (hd :: tl)) : ∀ e ∈ hd :: tl, hd.2.length ≤ e.2.length := by
  intro e he
  rcases List.mem_cons.mp he with rfl | he'
  · exact le_refl _
  · have h1 := hm.1
    simp only [List.map_cons] at h1
    exact (List.pairwise_cons.mp h1).1 e.2.length (List.mem_map_of_mem _ he')

/-- `QMono` survives popping the head. -/
theorem qmono_tail (hd : String × List String) (tl : List (String × List String))
    (hm : QMono (hd :: tl)) : QMono tl := by
  refine ⟨?_, fun e he f hf =>
    hm.2 e (List.mem_cons_of_mem _ he) f (List.mem_cons_of_mem _ hf)⟩
  have h1 := hm.1
  simp only [List.map_cons] at h1
  exact (List.pairwise_cons.mp h1).2

/-- `QMono` survives one BFS step: pop the head, append entries that are
all exactly one longer than the popped path. -/
theorem qmono_step (c : String) (p0 : List String)
    (rest new : List (String × List String))
    (hm : QMono ((c, p0) :: rest))
    (hnew : ∀ e ∈ new, e.2.length = p0.length + 1) :
    QMono (rest ++ new) := by
  have hhd := qmono_head_le (c, p0) rest hm
  constructor
  · rw [List.map_append]
    refine List.pairwise_append.mpr ⟨(qmono_tail _ _ hm).1, ?_, ?_⟩
    · exact pairwise_le_of_const _ (p0.length + 1)
        (fun x hx => by
          obtain ⟨e, he, rfl⟩ := List.mem_map.mp hx
          exact hnew e he)
    · intro x hx y hy
      obtain ⟨e, he, rfl⟩ := List.mem_map.mp hx
      obtain ⟨f, hf, rfl⟩ := List.mem_map.mp hy
      rw [hnew f hf]
      exact hm.2 e (List.mem_cons_of_mem _ he) (c, p0) (List.mem_cons_self _ _)
  · intro e he f hf
    rcases List.mem_append.mp he with he' | he' <;>
      rcases List.mem_append.mp hf with hf' | hf'
    · exact hm.2 e (List.mem_cons_of_mem _ he') f (List.mem_cons_of_mem _ hf')
    · rw [hnew f hf']
      have h : e.2.length ≤ p0.length + 1 :=
        hm.2 e (List.mem_cons_of_mem _ he') (c, p0) (List.mem_cons_self _ _)
      omega
    · rw [hnew e he']
      have h : p0.length ≤ f.2.length :=
        hhd f (List.mem_cons_of_mem _ hf')
      omega
    · rw [hnew e he', hnew f hf']
      omega

/-- A vertex set closed under adjacency swallows every chain that starts
inside it. -/
theorem path_in_closed (db : DB) (S : List String)
    (hS : ∀ x ∈ S, ∀ y, adjacentB db x y = true → y ∈ S) :
    ∀ (w : List String) (x : String), w.head? = some x → x ∈ S →
      w.Chain' (fun u u' => adjacentB db u u' = true) → ∀ z ∈ w, z ∈ S := by
  intro w
  induction w with
  | nil => intro x hx; exact Option.noConfusion hx
  | cons a t ih =>
    intro x hx hxS hch z hz
    have hax : a = x := by injection hx
    subst hax
    rcases List.mem_cons.mp hz with rfl | hz'
    · exact hxS
    · cases t with
      | nil => cases hz'
      | cons b t2 =>
        have hab : adjacentB db a b = true := (List.chain'_cons.mp hch).1
        exact ih b rfl (hS a hxS b hab) (List.chain'_cons.mp hch).2 z hz'

/-- Any chain can be shortened to a duplicate-free chain with the same
endpoints, no longer than the original and drawn from its vertices. -/
theorem chain_shorten {α : Type} (R : α → α → Prop) :
    ∀ (n : Nat) (w : List α), w.length ≤ n → w.Chain' R →
      ∀ x y, w.head? = some x → w.getLast? = some y →
      ∃ w' : List α, w'.Nodup ∧ w'.Chain' R ∧ w'.head? = some x ∧
        w'.getLast? = some y ∧ w'.length ≤ w.length ∧ ∀ z ∈ w', z ∈ w := by
  intro n
  induction n with
  | zero =>
    intro w hw _ x y hx _
    cases w with
    | nil => exact Option.noConfusion hx
    | cons a t => simp at hw
  | succ n ih =>
    intro w hw hch x y hx hy
    cases w with
    | nil => exact Option.noConfusion hx
    | cons a t =>
      have hax : a = x := by injection hx
      subst hax
      by_cases hmem : a ∈ t
      · obtain ⟨u, t2, rfl⟩ := List.append_of_mem hmem
        have hsuff : (a :: t2) <:+ (a :: (u ++ a :: t2)) :=
          ⟨a :: u, by simp⟩
        have hch2 : (a :: t2).Chain' R := hch.suffix hsuff
        have hlen2 : (a :: t2).length ≤ n := by
          simp only [List.length_cons, List.length_append] at hw ⊢
          omega
        have hy2 : (a :: t2).getLast? = some y := by
          rw [show (a :: (u ++ a :: t2)) = (a :: u) ++ (a :: t2) by simp,
            List.getLast?_append] at hy
          cases hg : (a :: t2).getLast? with
          | none => simp [List.getLast?_eq_getElem?] at hg
          | some z =>
            rw [hg] at hy
            simp only [Option.or_some, Option.some.injEq] at hy
            rw [hy]
        obtain ⟨w', h1, h2, h3, h4, h5, h6⟩ := ih (a :: t2) hlen2 hch2 a y rfl hy2
        refine ⟨w', h1, h2, h3, h4, ?_, ?_⟩
        · simp only [List.length_cons, List.length_append] at h5 ⊢
          omega
        · intro z hz
          have := h6 z hz
          rcases List.mem_cons.mp this with rfl | hz'
          · exact List.mem_cons_self _ _
          · exact List.mem_cons_of_mem _ (List.mem_append_right _ (List.mem_cons_of_mem _ hz'))
      · cases t with
        | nil =>
          refine ⟨[a], List.nodup_singleton a, List.chain'_singleton a, rfl, ?_, by simp, by simp⟩
          simpa using hy
        | cons b t2 =>
          have hRab : R a b := (List.chain'_cons.mp hch).1
          have hch2 : (b :: t2).Chain' R := (List.chain'_cons.mp hch).2
          have hy2 : (b :: t2).getLast? = some y := by
            rwa [List.getLast?_cons_cons] at hy
          have hlen2 : (b :: t2).length ≤ n := by
            simp only [List.length_cons] at hw ⊢
            omega
          obtain ⟨w', h1, h2, h3, h4, h5, h6⟩ := ih (b :: t2) hlen2 hch2 b y rfl hy2
          have haw' : ¬ a ∈ w' := fun hc => hmem (h6 a hc)
          cases w' with
          | nil => exact Option.noConfusion h3
          | cons b' w2 =>
            have hbb : b' = b := by injection h3
            subst hbb
            refine ⟨a :: b' :: w2, List.nodup_cons.mpr ⟨haw', h1⟩,
              List.chain'_cons.mpr ⟨hRab, h2⟩, rfl, ?_, ?_, ?_⟩
            · rwa [List.getLast?_cons_cons]
            · simp only [List.length_cons] at h5 ⊢
              omega
            · intro z hz
              rcases List.mem_cons.mp hz with rfl | hz'
              · exact List.mem_cons_self _ _
              · exact List.mem_cons_of_mem _ (h6 z hz')

/-- BFS soundness: under the queue-path invariant, a returned list is a
chain from `a` to `endKey`. -/
theorem bfs_sound (db : DB) (endKey a : String) :
    ∀ (q : List (String × List String)) (v : List String),
      ∀ p, bfs db endKey q v = some p → QPath db a q →
        p.head? = some a ∧ p.getLast? = some endKey ∧
          p.Chain' (fun x y => adjacentB db x y = true) := by
  intro q v
  induction q, v using bfs.induct db endKey with
  | case1 v =>
    intro p h _
    rw [bfs] at h
    exact Option.noConfusion h
  | case2 p0 rest v =>
    intro p h hqp
    rw [bfs, if_pos rfl] at h
    have hp : p0 = p := by injection h
    subst hp
    have he := hqp (endKey, p0) (List.mem_cons_self _ _)
    exact ⟨he.1, he.2.1, he.2.2⟩
  | case3 c p0 rest v hne hvis ih =>
    intro p h hqp
    rw [bfs, if_neg hne, if_pos hvis] at h
    exact ih p h (fun e he => hqp e (List.mem_cons_of_mem _ he))
  | case4 c p0 rest v hne hnvis ih =>
    intro p h hqp
    rw [bfs, if_neg hne, if_neg hnvis] at h
    refine ih p h ?_
    intro e he
    rcases List.mem_append.mp he with he' | he'
    · exact hqp e (List.mem_cons_of_mem _ he')
    · obtain ⟨nn, hn, rfl⟩ := List.mem_map.mp he'
      have hhead := hqp (c, p0) (List.mem_cons_self _ _)
      have hnb : nn ∈ neighborsOf db c := (List.mem_filter.mp hn).1
      refine ⟨?_, List.getLast?_concat _, ?_⟩
      · cases p0 with
        | nil => exact Option.noConfusion hhead.1
        | cons z zs => simpa using hhead.1
      · refine List.chain'_append.mpr ⟨hhead.2.2, List.chain'_singleton _, ?_⟩
        intro x hx y hy
        have hxc : c = x := by
          have hl := hhead.2.1
          rw [hl] at hx
          simpa using hx
        have hynn : nn = y := by simpa using hy
        subst hxc
        subst hynn
        simpa [adjacentB] using hnb

/-- BFS completeness: a `none` result means no chain links any queued or
visited vertex to `endKey`. -/
theorem bfs_none_no_path (db : DB) (endKey : String) :
    ∀ (q : List (String × List String)) (v : List String),
      bfs db endKey q v = none → VClosed db q v → ¬ endKey ∈ v →
      ∀ x, (x ∈ v ∨ ∃ e ∈ q, e.1 = x) →
      ∀ w : List String, w.head? = some x → w.getLast? = some endKey →
        w.Chain' (fun u u' => adjacentB db u u' = true) → False := by
  intro q v
  induction q, v using bfs.induct db endKey with
  | case1 v =>
    intro _ hvc hnv x hx w hw hwl hwc
    rcases hx with hx | ⟨e, he, _⟩
    · have hclosed : ∀ x' ∈ v, ∀ y, adjacentB db x' y = true → y ∈ v := by
        intro x' hx' y hy
        rcases hvc x' hx' y hy with h' | ⟨e, he, _⟩
        · exact h'
        · cases he
      have hall := path_in_closed db v hclosed w x hw hx hwc
      have hmemw : endKey ∈ w := by
        rw [List.getLast?_eq_getElem?] at hwl
        exact List.getElem?_mem hwl
      exact hnv (hall endKey hmemw)
    · cases he
  | case2 p0 rest v =>
    intro h
    rw [bfs, if_pos rfl] at h
    exact Option.noConfusion h
  | case3 c p0 rest v hne hvis ih =>
    intro h hvc hnv x hx w hw hwl hwc
    rw [bfs, if_neg hne, if_pos hvis] at h
    refine ih h ?_ hnv x ?_ w hw hwl hwc
    · intro x' hx' y hy
      rcases hvc x' hx' y hy with h' | ⟨e, he, he1⟩
      · exact Or.inl h'
      · rcases List.mem_cons.mp he with rfl | he2
        · have hcy : c = y := he1
          exact Or.inl (by rw [← hcy]; exact hvis)
        · exact Or.inr ⟨e, he2, he1⟩
    · rcases hx with hx | ⟨e, he, he1⟩
      · exact Or.inl hx
      · rcases List.mem_cons.mp he with rfl | he2
        · have hcx : c = x := he1
          exact Or.inl (by rw [← hcx]; exact hvis)
        · exact Or.inr ⟨e, he2, he1⟩
  | case4 c p0 rest v hne hnvis ih =>
    intro h hvc hnv x hx w hw hwl hwc
    rw [bfs, if_neg hne, if_neg hnvis] at h
    refine ih h ?_ ?_ x ?_ w hw hwl hwc
    · intro x' hx' y hy
      rcases List.mem_cons.mp hx' with rfl | hx2
      · by_cases hyv : y ∈ v
        · exact Or.inl (List.mem_cons_of_mem _ hyv)
        · refine Or.inr ⟨(y, p0 ++ [y]), List.mem_append_right _ ?_, rfl⟩
          refine List.mem_map.mpr ⟨y, List.mem_filter.mpr ⟨?_, by simpa using hyv⟩, rfl⟩
          simpa [adjacentB] using hy
      · rcases hvc x' hx2 y hy with h' | ⟨e, he, he1⟩
        · exact Or.inl (List.mem_cons_of_mem _ h')
        · rcases List.mem_cons.mp he with rfl | he2
          · have hcy : c = y := he1
            exact Or.inl (by rw [← hcy]; exact List.mem_cons_self _ _)
          · exact Or.inr ⟨e, List.mem_append_left _ he2, he1⟩
    · intro hcv
      rcases List.mem_cons.mp hcv with heq | hc'
      · exact hne heq.symm
      · exact hnv hc'
    · rcases hx with hx | ⟨e, he, he1⟩
      · exact Or.inl (List.mem_cons_of_mem _ hx)
      · rcases List.mem_cons.mp he with rfl | he2
        · have hcx : c = x := he1
          exact Or.inl (by rw [← hcx]; exact List.mem_cons_self _ _)
        · exact Or.inr ⟨e, List.mem_append_left _ he2, he1⟩

/-- BFS minimality: under the FIFO length discipline and the tracking
invariant for a duplicate-free target chain `w` ending at `endKey`, any
returned path is no longer than `w`. -/
theorem bfs_min (db : DB) (endKey : String) (w : List String)
    (hnd : w.Nodup) (hlast : w.getLast? = some endKey)
    (hch : w.Chain' (fun x y => adjacentB db x y = true)) :
    ∀ (q : List (String × List String)) (v : List String),
      ∀ p, bfs db endKey q v = some p → QMono q → WTrack w q v →
        p.length ≤ w.length := by
  intro q v
  induction q, v using bfs.induct db endKey with
  | case1 v =>
    intro p h _ _
    rw [bfs] at h
    exact Option.noConfusion h
  | case2 p0 rest v =>
    intro p h hm htr
    rw [bfs, if_pos rfl] at h
    have hp : p0 = p := by injection h
    subst hp
    obtain ⟨i, x, hwi, ⟨pe, hpe, hpelen⟩, hnv⟩ := htr
    have hhd : p0.length ≤ pe.length := qmono_head_le (endKey, p0) rest hm (x, pe) hpe
    have hi : i < w.length := (List.getElem?_eq_some.mp hwi).1
    omega
  | case3 c p0 rest v hne hvis ih =>
    intro p h hm htr
    rw [bfs, if_neg hne, if_pos hvis] at h
    refine ih p h (qmono_tail _ _ hm) ?_
    obtain ⟨i, x, hwi, ⟨pe, hpe, hpelen⟩, hnv⟩ := htr
    rcases List.mem_cons.mp hpe with heq | hpe'
    · exfalso
      have hxc : x = c := congrArg Prod.fst heq
      exact hnv i x (le_refl i) hwi (by rw [hxc]; exact hvis)
    · exact ⟨i, x, hwi, ⟨pe, hpe', hpelen⟩, hnv⟩
  | case4 c p0 rest v hne hnvis ih =>
    intro p h hm htr
    rw [bfs, if_neg hne, if_neg hnvis] at h
    obtain ⟨i, x, hwi, ⟨pe, hpe, hpelen⟩, hnv⟩ := htr
    have hp0pe : p0.length ≤ pe.length := qmono_head_le (c, p0) rest hm (x, pe) hpe
    refine ih p h (qmono_step c p0 rest _ hm ?_) ?_
    · intro e he
      obtain ⟨nn, hn, rfl⟩ := List.mem_map.mp he
      simp
    · by_cases hcase : ∃ j, i ≤ j ∧ w[j]? = some c
      · obtain ⟨j, hij, hwj⟩ := hcase
        have hj : j < w.length := (List.getElem?_eq_some.mp hwj).1
        have hjne : j ≠ w.length - 1 := by
          intro hj'
          rw [List.getLast?_eq_getElem?, ← hj', hwj] at hlast
          exact hne (by injection hlast)
        have hj1 : j + 1 < w.length := by omega
        obtain ⟨y', hy'⟩ : ∃ y', w[j + 1]? = some y' :=
          ⟨w[j + 1], List.getElem?_eq_getElem hj1⟩
        have hadj : adjacentB db c y' = true := by
          obtain ⟨hb1, he1⟩ := List.getElem?_eq_some.mp hwj
          obtain ⟨hb2, he2⟩ := List.getElem?_eq_some.mp hy'
          rw [← he1, ← he2]
          have hcg := List.chain'_iff_get.mp hch j (by omega)
          simpa [List.get_eq_getElem] using hcg
        have hy'nv : ¬ y' ∈ v := hnv (j + 1) y' (by omega) hy'
        refine ⟨j + 1, y', hy', ⟨p0 ++ [y'], ?_, ?_⟩, ?_⟩
        · refine List.mem_append_right _
            (List.mem_map.mpr ⟨y', List.mem_filter.mpr ⟨?_, by simpa using hy'nv⟩, rfl⟩)
          simpa [adjacentB] using hadj
        · have hlen : (p0 ++ [y']).length = p0.length + 1 := by simp
          omega
        · intro m y him hwm hyv
          rcases List.mem_cons.mp hyv with rfl | hyv'
          · have := List.getElem?_inj hj hnd (hwj.trans hwm.symm)
            omega
          · exact hnv m y (by omega) hwm hyv'
      · push_neg at hcase
        have hxnec : x ≠ c := fun hxc => hcase i (le_refl i) (hxc ▸ hwi)
        rcases List.mem_cons.mp hpe with heq | hpe'
        · exact absurd (congrArg Prod.fst heq) hxnec
        · refine ⟨i, x, hwi, ⟨pe, List.mem_append_left _ hpe', hpelen⟩, ?_⟩
          intro m y him hwm hyv
          rcases List.mem_cons.mp hyv with rfl | hyv'
          · exact hcase m him hwm
          · exact hnv m y him hwm hyv'

/-- A four-node diamond: `a—b`, `a—c`, `b—c`, `c—d`.  The shortest route
from `a` to `d` is `a, c, d`. -/
def exPathDb : DB :=
  ⟨[("a", ⟨[], [("b", ⟨none, none⟩), ("c", ⟨none, none⟩)]⟩),
    ("b", ⟨[], [("a", ⟨none, none⟩), ("c", ⟨none, none⟩)]⟩),
    ("c", ⟨[], [("a", ⟨none, none⟩), ("b", ⟨none, none⟩), ("d", ⟨none, none⟩)]⟩),
    ("d", ⟨[], [("c", ⟨none, none⟩)]⟩)], []⟩

/-- Claim C6 (confirmed): on a referentially closed database, for existing
ids `a` and `b`: `find_path(a,a)` is `[a]`; a returned path starts at `a`,
ends at `b`, steps only along adjacencies, and no strictly shorter such
vertex sequence exists; a `None` result means no such sequence exists at
all; and a missing id raises the `KeyError` of the source. -/
theorem findPath_spec (db : DB) (a b : String)
    (hcl : edgesClosed db = true)
    (ha : hasKey db.nodes a = true) (hb : hasKey db.nodes b = true) :
    findPath db a a = .ok (some [a]) ∧
    (∀ p, findPath db a b = .ok (some p) →
      IsPath db a b p ∧ ∀ qq, IsPath db a b qq → p.length ≤ qq.length) ∧
    (findPath db a b = .ok none → ∀ qq, ¬ IsPath db a b qq) ∧
    (∀ c d, hasKey db.nodes c = false ∨ hasKey db.nodes d = false →
      findPath db c d = .error (.keyError "One or both node IDs do not exist")) := by
  refine ⟨by simp [findPath, ha], ?_, ?_, ?_⟩
  · intro p hp
    by_cases hab : a = b
    · subst hab
      have hval : findPath db a a = .ok (some [a]) := by simp [findPath, ha]
      rw [hval] at hp
      have hpa : some [a] = some p := by injection hp
      have hpa2 : [a] = p := by injection hpa
      subst hpa2
      refine ⟨⟨rfl, rfl, List.chain'_singleton a⟩, ?_⟩
      intro qq hqq
      have hh := hqq.1
      cases qq with
      | nil => exact Option.noConfusion hh
      | cons z zs =>
        simp only [List.length_cons, List.length_nil]
        omega
    · have hbfs : bfs db b [(a, [a])] [] = some p := by
        simp only [findPath, ha, hb, hab] at hp
        injection hp
      have hqp : QPath db a [(a, [a])] := by
        intro e he
        have he' : e = (a, [a]) := List.mem_singleton.mp he
        subst he'
        exact ⟨rfl, rfl, List.chain'_singleton a⟩
      have hsound := bfs_sound db b a [(a, [a])] [] p hbfs hqp
      refine ⟨⟨hsound.1, hsound.2.1, hsound.2.2⟩, ?_⟩
      intro qq hqq
      obtain ⟨w', hnd, hch', hh, hl, hlen, _⟩ :=
        chain_shorten (fun x y => adjacentB db x y = true) qq.length qq (le_refl _)
          hqq.2.2 a b hqq.1 hqq.2.1
      have hQM : QMono [(a, [a])] := by
        constructor
        · simp
        · intro e he f hf
          have he' : e = (a, [a]) := List.mem_singleton.mp he
          have hf' : f = (a, [a]) := List.mem_singleton.mp hf
          subst he'
          subst hf'
          simp
      have hWT : WTrack w' [(a, [a])] [] := by
        refine ⟨0, a, ?_, ⟨[a], List.mem_singleton.mpr rfl, by simp⟩, ?_⟩
        · rw [← List.head?_eq_getElem?]
          exact hh
        · intro j y _ _ hy
          exact absurd hy (List.not_mem_nil y)
      have hmin := bfs_min db b w' hnd hl hch' [(a, [a])] [] p hbfs hQM hWT
      omega
  · intro hnone qq hqq
    by_cases hab : a = b
    · subst hab
      have hval : findPath db a a = .ok (some [a]) := by simp [findPath, ha]
      rw [hval] at hnone
      have h1 : some [a] = (none : Option (List String)) := by injection hnone
      exact Option.noConfusion h1
    · have hbfs : bfs db b [(a, [a])] [] = none := by
        simp only [findPath, ha, hb, hab] at hnone
        injection hnone
      exact bfs_none_no_path db b [(a, [a])] [] hbfs
        (fun x hx => absurd hx (List.not_mem_nil x))
        (List.not_mem_nil b)
        a (Or.inr ⟨(a, [a]), List.mem_singleton.mpr rfl, rfl⟩)
        qq hqq.1 hqq.2.1 hqq.2.2
  · intro c d hcd
    rcases hcd with hcd | hcd <;> simp [findPath, hcd]

/-- The path theorem applied to the concrete diamond database: the
adjacency is referentially closed, both ids exist, and among the
conclusions `find_path("a","a")` is the singleton path. -/
theorem findPath_spec_witness :
    edgesClosed exPathDb = true ∧ hasKey exPathDb.nodes "a" = true ∧
      hasKey exPathDb.nodes "d" = true ∧
      findPath exPathDb "a" "a" = .ok (some ["a"]) :=
  ⟨rfl, rfl, rfl, (findPath_spec exPathDb "a" "d" rfl rfl rfl).1⟩
